import Mathlib

/-!
# Docbrand Block–Requirement Link Consistency Engine: a shallow embedding

This file embeds the core of the Docbrand repository in Lean 4 and proves
properties of it:

* `LinkIndex` (`src/lib/editor/LinkIndex.ts`): the derived bidirectional
  requirement↔block index, with `rebuildFromDocument`, the incremental
  `applyTransactionUpdate` path (`addLink` / `removeLink`) and the
  `verifySyncWithDocument` diagnostic.
* the `BlockIndex` ProseMirror plugin (`src/lib/editor/plugins` `BlockIndexPlugin`):
  blockId → position mapping rebuilt from transactions.
* the requirements mirror store (`src/store/requirementsStore.ts`):
  `linkToBlock` / `unlinkFromBlock`.
* the Dexie persistence helper `commitSnapshot` (`src/lib/db.ts`): atomic
  snapshot write with per-document garbage collection of block metadata.
* `EditorController.linkRequirementToBlock` (`src/lib/editor/EditorController.ts`).

JavaScript `Map`s are modelled as association lists in insertion order
(`mapGet` / `mapSet` / `mapDelete`), JavaScript `Set`s of strings as duplicate-free
lists in insertion order (`setAdd` / `setDelete`), so that order-sensitive
observations (`Array.from(set)`) are faithful. `Date.now()` is threaded as an
explicit `now : Nat` parameter; TS numbers used only as the constant `1.0`
confidence are modelled as `Rat`.
-/

namespace Docbrand

-- ===========================================================================
-- JS Map / Set emulation (insertion-ordered association lists)
-- ===========================================================================

/-- `Map.get`: value of the first (under no-duplicate-keys: the only) entry. -/
def mapGet {α : Type} : List (String × α) → String → Option α
  | [], _ => none
  | (k, v) :: rest, key => if k = key then some v else mapGet rest key

/-- `Map.set`: update the entry in place if the key exists, else append. -/
def mapSet {α : Type} : List (String × α) → String → α → List (String × α)
  | [], key, val => [(key, val)]
  | (k, v) :: rest, key, val =>
    if k = key then (key, val) :: rest else (k, v) :: mapSet rest key val

/-- `Map.delete`: remove the entry with the given key. -/
def mapDelete {α : Type} : List (String × α) → String → List (String × α)
  | [], _ => []
  | (k, v) :: rest, key => if k = key then rest else (k, v) :: mapDelete rest key

/-- Keys of the map, in insertion order. -/
abbrev mapKeys {α : Type} (m : List (String × α)) : List String := m.map Prod.fst

/-- Well-formedness of the emulation: a JS `Map` never has duplicate keys. -/
abbrev NodupKeys {α : Type} (m : List (String × α)) : Prop := (mapKeys m).Nodup

/-- `Set.add`: append if absent (JS sets preserve insertion order). -/
def setAdd (s : List String) (x : String) : List String :=
  if x ∈ s then s else s ++ [x]

/-- `Set.delete`: remove the element (on duplicate-free lists). -/
def setDelete (s : List String) (x : String) : List String :=
  s.filter (fun y => y ≠ x)

-- ===========================================================================
-- Data model: LinkedRequirement, document tree (JSONContent)
-- ===========================================================================

/-- `coverage: 'full' | 'partial'` of a link record. -/
inductive Coverage where
  | full
  | partialCov
deriving DecidableEq, Repr

/-- `LinkedRequirement` from `extensions/DocBlock.ts`. -/
structure LinkedRequirement where
  reqId : String
  coverage : Coverage
  confidence : Rat
  timestamp : Nat
deriving DecidableEq, Repr

/-- `isRequirementLinked` helper from `extensions/DocBlock.ts`. -/
def isRequirementLinkedIn (lrs : List LinkedRequirement) (reqId : String) : Bool :=
  lrs.any (fun lr => lr.reqId = reqId)

/-- `createLinkedRequirement` from `extensions/DocBlock.ts`. -/
def createLinkedRequirement (reqId : String) (coverage : Coverage) (now : Nat) :
    LinkedRequirement :=
  ⟨reqId, coverage, 1, now⟩

/-- `addRequirementLink` from `extensions/DocBlock.ts`: coalesce on `reqId`. -/
def addRequirementLink (lrs : List LinkedRequirement) (reqId : String)
    (coverage : Coverage) (now : Nat) : List LinkedRequirement :=
  if isRequirementLinkedIn lrs reqId then lrs
  else lrs ++ [createLinkedRequirement reqId coverage now]

/-- `removeRequirementLink` from `extensions/DocBlock.ts`. -/
def removeRequirementLink (lrs : List LinkedRequirement) (reqId : String) :
    List LinkedRequirement :=
  lrs.filter (fun lr => lr.reqId ≠ reqId)

/-- The document tree (`JSONContent` of the editor / ProseMirror node tree):
a node carries its `type`, the `attrs` consulted by the engine
(`id`, `blockType`, `linkedRequirements`, with absence modelled by `Option`
and the `|| []` default built in) and its children; text leaves carry their
text. -/
inductive JSONContent where
  | text (s : String)
  | node (type : String) (id : Option String) (blockType : Option String)
      (linkedRequirements : List LinkedRequirement) (content : List JSONContent)

mutual

/-- Structural equality test on document trees. -/
def JSONContent.beq : JSONContent → JSONContent → Bool
  | .text s, .text t => s = t
  | .node t1 i1 b1 l1 c1, .node t2 i2 b2 l2 c2 =>
    t1 = t2 ∧ i1 = i2 ∧ b1 = b2 ∧ l1 = l2 && JSONContent.beqList c1 c2
  | _, _ => false

/-- Structural equality test on child lists. -/
def JSONContent.beqList : List JSONContent → List JSONContent → Bool
  | [], [] => true
  | a :: as, b :: bs => JSONContent.beq a b && JSONContent.beqList as bs
  | _, _ => false

end

mutual

theorem JSONContent.beq_iff : ∀ a b : JSONContent, JSONContent.beq a b = true ↔ a = b
  | .text _, .text _ => by simp [JSONContent.beq]
  | .text _, .node _ _ _ _ _ => by simp [JSONContent.beq]
  | .node _ _ _ _ _, .text _ => by simp [JSONContent.beq]
  | .node t1 i1 b1 l1 c1, .node t2 i2 b2 l2 c2 => by
    simp [JSONContent.beq, JSONContent.beqList_iff c1 c2, and_assoc]

theorem JSONContent.beqList_iff :
    ∀ as bs : List JSONContent, JSONContent.beqList as bs = true ↔ as = bs
  | [], [] => by simp [JSONContent.beqList]
  | [], _ :: _ => by simp [JSONContent.beqList]
  | _ :: _, [] => by simp [JSONContent.beqList]
  | a :: as, b :: bs => by
    simp [JSONContent.beqList, JSONContent.beq_iff a b, JSONContent.beqList_iff as bs]

end

instance : DecidableEq JSONContent := fun a b =>
  decidable_of_iff _ (JSONContent.beq_iff a b)

-- ===========================================================================
-- LinkIndex (src/lib/editor/LinkIndex.ts)
-- ===========================================================================

/-- `LinkIndex`: `reqToBlocks : Map<string, Set<string>>` and
`blockToReqs : Map<string, LinkedRequirement[]>`. -/
structure LinkIndex where
  reqToBlocks : List (String × List String)
  blockToReqs : List (String × List LinkedRequirement)
deriving DecidableEq, Repr

/-- The cleared index (`clear()` / a fresh `new LinkIndex()`). -/
def LinkIndex.empty : LinkIndex := ⟨[], []⟩

/-- The `reqToBlocks` update of one link record during traversal or `addLink`:
create the entry if missing, then `Set.add` the block id. -/
def rtbAdd (m : List (String × List String)) (reqId blockId : String) :
    List (String × List String) :=
  mapSet m reqId (setAdd ((mapGet m reqId).getD []) blockId)

/-- Indexing of one `docBlock`'s `(id, linkedRequirements)` during traversal:
a non-empty list is stored verbatim in `blockToReqs` and each record adds the
block to `reqToBlocks`. -/
def LinkIndex.insertCanon (idx : LinkIndex) (p : String × List LinkedRequirement) :
    LinkIndex :=
  if p.2.isEmpty then idx
  else
    { blockToReqs := mapSet idx.blockToReqs p.1 p.2,
      reqToBlocks := p.2.foldl (fun m lr => rtbAdd m lr.reqId p.1) idx.reqToBlocks }

/-- The body of `traverseAndIndex` for one node's attributes: a `docBlock`
with an id and a non-empty `linkedRequirements` populates both maps. -/
def LinkIndex.indexNode (idx : LinkIndex) (ty : String) (id : Option String)
    (lrs : List LinkedRequirement) : LinkIndex :=
  match id with
  | none => idx
  | some blockId =>
    if ty = "docBlock" then idx.insertCanon (blockId, lrs)
    else idx

mutual

/-- `traverseAndIndex`: index this node, then recurse into its children. -/
def LinkIndex.traverseAndIndex (idx : LinkIndex) : JSONContent → LinkIndex
  | .text _ => idx
  | .node ty id _ lrs content =>
    LinkIndex.traverseList (idx.indexNode ty id lrs) content

/-- Traversal of a child list, left to right. -/
def LinkIndex.traverseList (idx : LinkIndex) : List JSONContent → LinkIndex
  | [] => idx
  | c :: cs => LinkIndex.traverseList (idx.traverseAndIndex c) cs

end

/-- `rebuildFromDocument`: clear both maps, then one full traversal.
The result does not depend on the previous index state. -/
def LinkIndex.rebuildFromDocument (doc : JSONContent) : LinkIndex :=
  LinkIndex.empty.traverseAndIndex doc

/-- `getBlocksForRequirement`: `Array.from` of the set, `[]` when absent. -/
def LinkIndex.getBlocksForRequirement (idx : LinkIndex) (reqId : String) : List String :=
  (mapGet idx.reqToBlocks reqId).getD []

/-- `getRequirementsForBlock`. -/
def LinkIndex.getRequirementsForBlock (idx : LinkIndex) (blockId : String) :
    List LinkedRequirement :=
  (mapGet idx.blockToReqs blockId).getD []

/-- `isRequirementLinked`. -/
def LinkIndex.isRequirementLinked (idx : LinkIndex) (reqId : String) : Bool :=
  match mapGet idx.reqToBlocks reqId with
  | none => false
  | some blocks => !blocks.isEmpty

/-- `hasLinks`. -/
def LinkIndex.hasLinks (idx : LinkIndex) (blockId : String) : Bool :=
  match mapGet idx.blockToReqs blockId with
  | none => false
  | some reqs => !reqs.isEmpty

/-- `getLinkCount`. -/
def LinkIndex.getLinkCount (idx : LinkIndex) (blockId : String) : Nat :=
  ((mapGet idx.blockToReqs blockId).getD []).length

/-- `getTotalLinkCount`: sum of the lengths of all `blockToReqs` values. -/
def LinkIndex.getTotalLinkCount (idx : LinkIndex) : Nat :=
  (idx.blockToReqs.map (fun bp => bp.2.length)).sum

/-- `addLink` (private): coalesce on `reqId` in `blockToReqs`, add to
`reqToBlocks`; new records carry confidence `1.0` and the current time. -/
def LinkIndex.addLink (idx : LinkIndex) (blockId reqId : String)
    (coverage : Coverage) (now : Nat) : LinkIndex :=
  let btr0 := if (mapGet idx.blockToReqs blockId).isSome then idx.blockToReqs
              else mapSet idx.blockToReqs blockId []
  let reqs := (mapGet btr0 blockId).getD []
  let reqs1 := if reqs.any (fun r => r.reqId = reqId) then reqs
               else reqs ++ [⟨reqId, coverage, 1, now⟩]
  { blockToReqs := mapSet btr0 blockId reqs1,
    reqToBlocks := rtbAdd idx.reqToBlocks reqId blockId }

/-- `removeLink` (private): filter the record out of `blockToReqs[blockId]`
(pruning the entry when it becomes empty) and `Set.delete` the block from
`reqToBlocks[reqId]` (pruning the key when the set becomes empty). -/
def LinkIndex.removeLink (idx : LinkIndex) (blockId reqId : String) : LinkIndex :=
  let btr :=
    match mapGet idx.blockToReqs blockId with
    | none => idx.blockToReqs
    | some reqs =>
      let filtered := reqs.filter (fun r => r.reqId ≠ reqId)
      if filtered.length > 0 then mapSet idx.blockToReqs blockId filtered
      else mapDelete idx.blockToReqs blockId
  let rtb :=
    match mapGet idx.reqToBlocks reqId with
    | none => idx.reqToBlocks
    | some blocks =>
      let remaining := setDelete blocks blockId
      if remaining.length = 0 then mapDelete idx.reqToBlocks reqId
      else mapSet idx.reqToBlocks reqId remaining
  { reqToBlocks := rtb, blockToReqs := btr }

/-- `LinkTransactionMeta`: the explicit link-change annotation
`{blockId, addedLinks, removedLinks}`. -/
structure LinkTransactionMeta where
  blockId : String
  addedLinks : List (String × Coverage)
  removedLinks : List String
deriving DecidableEq, Repr

/-- `applyTransactionUpdate`: removed links first, then added links. -/
def LinkIndex.applyTransactionUpdate (idx : LinkIndex) (meta : LinkTransactionMeta)
    (now : Nat) : LinkIndex :=
  let afterRemove := meta.removedLinks.foldl
    (fun i r => i.removeLink meta.blockId r) idx
  meta.addedLinks.foldl
    (fun i p => i.addLink meta.blockId p.1 p.2 now) afterRemove

/-- `verifySyncWithDocument`: build a throwaway fresh index and compare the
`blockToReqs` sizes and each live block's link count. -/
def LinkIndex.verifySyncWithDocument (idx : LinkIndex) (doc : JSONContent) : Bool :=
  let freshIndex := LinkIndex.rebuildFromDocument doc
  if idx.blockToReqs.length ≠ freshIndex.blockToReqs.length then false
  else idx.blockToReqs.all fun bp =>
    match mapGet freshIndex.blockToReqs bp.1 with
    | none => false
    | some freshReqs => bp.2.length = freshReqs.length

-- ===========================================================================
-- Canonical view of a document: its docBlocks in traversal (pre-order) order
-- ===========================================================================

mutual

/-- The `(id, linkedRequirements)` pairs of all `docBlock` nodes with an id,
in the same pre-order the `LinkIndex` traversal visits them. -/
def JSONContent.canonBlocks : JSONContent → List (String × List LinkedRequirement)
  | .text _ => []
  | .node ty id _ lrs content =>
    (match id with
     | some blockId => if ty = "docBlock" then [(blockId, lrs)] else []
     | none => []) ++ JSONContent.canonBlocksList content

/-- `canonBlocks` over a child list. -/
def JSONContent.canonBlocksList : List JSONContent → List (String × List LinkedRequirement)
  | [] => []
  | c :: cs => c.canonBlocks ++ JSONContent.canonBlocksList cs

end

/-- The canonical `linkedRequirements` attribute of block `b` in `doc`
(`[]` when no such block exists). -/
def JSONContent.canonLinks (doc : JSONContent) (b : String) : List LinkedRequirement :=
  (mapGet doc.canonBlocks b).getD []

/-- A document whose `docBlock` ids are pairwise distinct (the data-model
invariant "a block's id is unique among all blocks simultaneously present"). -/
def JSONContent.NodupBlockIds (doc : JSONContent) : Prop :=
  NodupKeys doc.canonBlocks

instance (doc : JSONContent) : Decidable doc.NodupBlockIds := by
  unfold JSONContent.NodupBlockIds; infer_instance

-- ===========================================================================
-- BlockIndex plugin (src/lib/editor/plugins, BlockIndexPlugin)
-- ===========================================================================

/-- `BlockPosition`: pure position data recorded per block. -/
structure BlockPosition where
  pos : Nat
  nodeSize : Nat
  type : String
  hasLinks : Bool
deriving DecidableEq, Repr

mutual

/-- ProseMirror `nodeSize`: text nodes count their characters, element nodes
are `2 +` the sizes of their children. -/
def JSONContent.nodeSize : JSONContent → Nat
  | .text s => s.length
  | .node _ _ _ _ content => 2 + JSONContent.nodeSizeList content

/-- Total size of a child list. -/
def JSONContent.nodeSizeList : List JSONContent → Nat
  | [] => 0
  | c :: cs => c.nodeSize + JSONContent.nodeSizeList cs

end

mutual

/-- `buildBlockIndex` over one node at position `pos`: record a `docBlock`
that has an id and do not descend into it; otherwise descend. -/
def buildBlockIndexNode (acc : List (String × BlockPosition)) (pos : Nat) :
    JSONContent → List (String × BlockPosition)
  | .text _ => acc
  | .node ty id bty lrs content =>
    match id with
    | some blockId =>
      if ty = "docBlock" then
        mapSet acc blockId
          ⟨pos, 2 + JSONContent.nodeSizeList content, bty.getD "paragraph", !lrs.isEmpty⟩
      else buildBlockIndexList acc (pos + 1) content
    | none => buildBlockIndexList acc (pos + 1) content

/-- `descendants` over a child list: each child starts where the previous
one ended. -/
def buildBlockIndexList (acc : List (String × BlockPosition)) (pos : Nat) :
    List JSONContent → List (String × BlockPosition)
  | [] => acc
  | c :: cs => buildBlockIndexList (buildBlockIndexNode acc pos c) (pos + c.nodeSize) cs

end

/-- `buildBlockIndex(doc)`: `doc.descendants` does not visit the root; the
root's children start at position 0. -/
def buildBlockIndex : JSONContent → List (String × BlockPosition)
  | .text _ => []
  | .node _ _ _ _ content => buildBlockIndexList [] 0 content

/-- The plugin's state: the `blocks` map and its `version` counter. -/
structure BlockIndexState where
  blocks : List (String × BlockPosition)
  version : Nat
deriving DecidableEq, Repr

/-- A transaction as the plugin sees it: the documents before and after. -/
structure Transaction where
  oldDoc : JSONContent
  newDoc : JSONContent
deriving DecidableEq

/-- `tr.docChanged`: whether the transaction changed the document at all. -/
def Transaction.docChanged (tr : Transaction) : Bool :=
  tr.oldDoc ≠ tr.newDoc

/-- The plugin's `apply`: keep the state when `!tr.docChanged`, otherwise
rebuild the block index from the new document and bump the version. -/
def blockIndexApply (tr : Transaction) (value : BlockIndexState) : BlockIndexState :=
  if !tr.docChanged then value
  else { blocks := buildBlockIndex tr.newDoc, version := value.version + 1 }

mutual

/-- Whether two documents have the same tree shape: same node kinds, types,
child order and text sizes (hence the same node count, order and node
sizes), attributes and text contents disregarded. -/
def JSONContent.sameShape : JSONContent → JSONContent → Bool
  | .text s, .text t => s.length = t.length
  | .node t1 _ _ _ c1, .node t2 _ _ _ c2 => t1 = t2 && JSONContent.sameShapeList c1 c2
  | _, _ => false

/-- `sameShape` over child lists. -/
def JSONContent.sameShapeList : List JSONContent → List JSONContent → Bool
  | [], [] => true
  | a :: as, b :: bs => a.sameShape b && JSONContent.sameShapeList as bs
  | _, _ => false

end

-- ===========================================================================
-- Requirements mirror store (src/store/requirementsStore.ts)
-- ===========================================================================

/-- `status: 'unlinked' | 'partial' | 'linked' | 'ignored'`. -/
inductive ReqStatus where
  | unlinked
  | partialSt
  | linked
  | ignored
deriving DecidableEq, Repr

/-- `kanbanStatus` of a requirement. -/
inductive KanbanStatus where
  | toAddress
  | inProgress
  | inReview
  | complete
deriving DecidableEq, Repr

/-- `priority: 'mandatory' | 'desired'`. -/
inductive Priority where
  | mandatory
  | desired
deriving DecidableEq, Repr

/-- `Requirement` from `types` (the mirror store's records). -/
structure Requirement where
  id : String
  text : String
  originalText : String
  sectionPath : List String
  status : ReqStatus
  kanbanStatus : KanbanStatus
  priority : Priority
  linkedBlockIds : List String
  sourceFileId : String
  sourceFilename : String
  importedAt : Nat
deriving DecidableEq, Repr

/-- The store state the linking actions touch. -/
structure RequirementsState where
  requirements : List Requirement
  activeLinkingReqId : Option String
deriving DecidableEq, Repr

/-- The per-requirement update performed by `unlinkFromBlock`'s `map`:
on the matching id, filter the block out of `linkedBlockIds` and set
`status` to `'unlinked'` when the list *before* the call had `length <= 1`. -/
def unlinkReqUpdate (reqId blockId : String) (r : Requirement) : Requirement :=
  if r.id = reqId then
    { r with
      linkedBlockIds := r.linkedBlockIds.filter (fun bid => bid ≠ blockId),
      status := if r.linkedBlockIds.length ≤ 1 then .unlinked else r.status }
  else r

/-- `unlinkFromBlock` store action. -/
def unlinkFromBlock (s : RequirementsState) (reqId blockId : String) :
    RequirementsState :=
  { s with requirements := s.requirements.map (unlinkReqUpdate reqId blockId) }

/-- `linkToBlock` store action: append the block id, set `status` to
`'linked'`, clear the active linking mode. -/
def linkToBlock (s : RequirementsState) (reqId blockId : String) :
    RequirementsState :=
  { requirements := s.requirements.map fun r =>
      if r.id = reqId then
        { r with linkedBlockIds := r.linkedBlockIds ++ [blockId], status := .linked }
      else r,
    activeLinkingReqId := none }

-- ===========================================================================
-- Persistence and garbage collection (src/lib/db.ts, commitSnapshot)
-- ===========================================================================

/-- `DocumentRecord` of the `documents` table. -/
structure DocumentRecord where
  id : String
  title : String
  content : String
  createdAt : Nat
  updatedAt : Nat
  lastBlockId : Option String
deriving DecidableEq, Repr

/-- `BlockMetaRecord` of the `blockMeta` table (`provenance` omitted fields
are irrelevant to every claim and kept as an opaque optional label). -/
structure BlockMetaRecord where
  id : String
  docId : String
  blockId : String
  linkedRequirements : List String
  provenance : Option String
deriving DecidableEq, Repr

/-- The two tables `commitSnapshot` writes. -/
structure DocBrandDb where
  documents : List DocumentRecord
  blockMeta : List BlockMetaRecord
deriving DecidableEq, Repr

/-- `Table.put` on `documents`: upsert keyed on `id`. -/
def docTablePut : List DocumentRecord → DocumentRecord → List DocumentRecord
  | [], r => [r]
  | x :: rest, r => if x.id = r.id then r :: rest else x :: docTablePut rest r

/-- `Table.put` on `blockMeta`: upsert keyed on `id`. -/
def metaTablePut : List BlockMetaRecord → BlockMetaRecord → List BlockMetaRecord
  | [], r => [r]
  | x :: rest, r => if x.id = r.id then r :: rest else x :: metaTablePut rest r

/-- `commitSnapshot`: put the document record, bulk-put the present blocks'
metadata, then delete the records of this document whose block id is not in
`presentBlockIds` (mark-and-sweep scoped to `docRecord.id`). -/
def commitSnapshot (db : DocBrandDb) (docRecord : DocumentRecord)
    (metaRecords : List BlockMetaRecord) (presentBlockIds : List String) :
    DocBrandDb :=
  let documents1 := docTablePut db.documents docRecord
  let blockMeta1 := metaRecords.foldl metaTablePut db.blockMeta
  let allMeta := blockMeta1.filter (fun m => m.docId = docRecord.id)
  let staleIds := (allMeta.filter (fun m => m.blockId ∉ presentBlockIds)).map
    (fun m => m.id)
  let blockMeta2 := blockMeta1.filter (fun m => m.id ∉ staleIds)
  { documents := documents1, blockMeta := blockMeta2 }

-- ===========================================================================
-- EditorController (src/lib/editor/EditorController.ts)
-- ===========================================================================

/-- The editor state the controller mutates: the document and the singleton
`linkIndex`. -/
structure EditorState where
  doc : JSONContent
  idx : LinkIndex
deriving DecidableEq

mutual

/-- `findBlock` over one subtree, returning the path and the
`linkedRequirements` of the designated node. `doc.descendants` sets `result`
on every match and skips a match's children, so the designated node is the
*last* match in that traversal order. -/
def findBlockNode (blockId : String) : JSONContent → Option (List Nat × List LinkedRequirement)
  | .text _ => none
  | .node ty id _ lrs content =>
    if ty = "docBlock" ∧ id = some blockId then some ([], lrs)
    else findBlockList blockId 0 content

/-- `findBlock` over a child list, preferring later siblings. -/
def findBlockList (blockId : String) (i : Nat) :
    List JSONContent → Option (List Nat × List LinkedRequirement)
  | [] => none
  | c :: cs =>
    match findBlockList blockId (i + 1) cs with
    | some res => some res
    | none => (findBlockNode blockId c).map (fun pr => (i :: pr.1, pr.2))

end

mutual

/-- `tr.setNodeMarkup(block.pos, null, {...attrs, linkedRequirements})`:
replace the `linkedRequirements` attribute of the node at the given path,
keeping every other attribute and the content. -/
def updateLinksAt : JSONContent → List Nat → List LinkedRequirement → JSONContent
  | .text s, _, _ => .text s
  | .node ty id bty _ content, [], newLrs => .node ty id bty newLrs content
  | .node ty id bty lrs content, i :: rest, newLrs =>
    .node ty id bty lrs (updateLinksList content i rest newLrs)

/-- `updateLinksAt` dispatch into the `i`-th child. -/
def updateLinksList : List JSONContent → Nat → List Nat → List LinkedRequirement →
    List JSONContent
  | [], _, _, _ => []
  | c :: cs, 0, rest, newLrs => updateLinksAt c rest newLrs :: cs
  | c :: cs, i + 1, rest, newLrs => c :: updateLinksList cs i rest newLrs

end

/-- Whether any `docBlock` with the given id exists in the document. -/
def JSONContent.docHasBlock (doc : JSONContent) (blockId : String) : Bool :=
  (mapGet doc.canonBlocks blockId).isSome

/-- `EditorController.linkRequirementToBlock`: find the block, refuse when
absent or already linked, otherwise dispatch the attribute transaction and
apply the incremental index update. -/
def linkRequirementToBlock (st : EditorState) (blockId reqId : String) (now : Nat) :
    Bool × EditorState :=
  match findBlockNode blockId st.doc with
  | none => (false, st)
  | some (path, currentLinks) =>
    if currentLinks.any (fun lr => lr.reqId = reqId) then (false, st)
    else
      let updated := currentLinks ++ [⟨reqId, .full, 1, now⟩]
      let doc1 := updateLinksAt st.doc path updated
      let idx1 := st.idx.applyTransactionUpdate ⟨blockId, [(reqId, .full)], []⟩ now
      (true, { doc := doc1, idx := idx1 })

-- ===========================================================================
-- RequirementLinking extension (src/lib/editor/extensions/RequirementLinking.ts)
-- ===========================================================================

/-- The meta payload `transaction.getMeta(RequirementLinkingKey)` may carry. -/
structure LinkMetaPayload where
  mtype : String
  blockId : String
  addedLinks : List (String × Coverage)
  removedLinks : List String
deriving DecidableEq, Repr

/-- A transaction as `onTransaction` sees it: an optional meta payload,
plus whether it changed tree structure (which the handler never consults). -/
structure LinkTransaction where
  linkMeta : Option LinkMetaPayload
  structureChanged : Bool
deriving DecidableEq, Repr

/-- `onTransaction`: route to the incremental path exactly when the meta's
`type` is `'linkChange'`; otherwise leave the index alone. -/
def onTransactionLinkIndex (tx : LinkTransaction) (idx : LinkIndex) (now : Nat) :
    LinkIndex :=
  match tx.linkMeta with
  | some m =>
    if m.mtype = "linkChange" then
      idx.applyTransactionUpdate ⟨m.blockId, m.addedLinks, m.removedLinks⟩ now
    else idx
  | none => idx

-- ===========================================================================
-- Link/unlink operation sequences and their canonical application
-- ===========================================================================

/-- One link or unlink operation of the transaction protocol. -/
inductive LinkOp where
  | link (blockId reqId : String) (coverage : Coverage) (now : Nat)
  | unlink (blockId reqId : String)
deriving DecidableEq, Repr

/-- The block an operation targets. -/
def LinkOp.blockId : LinkOp → String
  | .link b _ _ _ => b
  | .unlink b _ => b

/-- The link-change annotation the operation attaches to its transaction
(exactly the metas `EditorController.linkRequirementToBlock` /
`unlinkRequirementFromBlock` dispatch). -/
def LinkOp.meta : LinkOp → LinkTransactionMeta
  | .link b r c _ => ⟨b, [(r, c)], []⟩
  | .unlink b r => ⟨b, [], [r]⟩

/-- The `Date.now()` value of the operation (irrelevant for unlink). -/
def LinkOp.now : LinkOp → Nat
  | .link _ _ _ n => n
  | .unlink _ _ => 0

/-- Modelled from the spec: the effect of one operation on one block's
canonical `linkedRequirements` attribute, using the canonical-attribute
helpers of `extensions/DocBlock.ts` (coalescing add, filtering remove). -/
def LinkOp.applyToList : LinkOp → List LinkedRequirement → List LinkedRequirement
  | .link _ r c n, lrs => addRequirementLink lrs r c n
  | .unlink _ r, lrs => removeRequirementLink lrs r

mutual

/-- Modelled from the spec: "applying S to D's canonical linkedRequirements
attributes" — the operation rewrites the `linkedRequirements` attribute of
the `docBlock` carrying its block id and leaves all else untouched. -/
def JSONContent.applyLinkOp : JSONContent → LinkOp → JSONContent
  | .text s, _ => .text s
  | .node ty id bty lrs content, op =>
    let lrs1 := if ty = "docBlock" ∧ id = some op.blockId then op.applyToList lrs else lrs
    .node ty id bty lrs1 (JSONContent.applyLinkOpList content op)

/-- `applyLinkOp` over a child list. -/
def JSONContent.applyLinkOpList : List JSONContent → LinkOp → List JSONContent
  | [], _ => []
  | c :: cs, op => c.applyLinkOp op :: JSONContent.applyLinkOpList cs op

end

/-- A sequence of incremental updates (the metas of an operation sequence). -/
def LinkIndex.applyMetas (idx : LinkIndex) (ops : List (LinkTransactionMeta × Nat)) :
    LinkIndex :=
  ops.foldl (fun i p => i.applyTransactionUpdate p.1 p.2) idx

/-- The incremental path of an operation sequence. -/
def LinkIndex.applyOpsIncremental (idx : LinkIndex) (S : List LinkOp) : LinkIndex :=
  S.foldl (fun i op => i.applyTransactionUpdate op.meta op.now) idx

/-- The canonical path of an operation sequence on the document. -/
def JSONContent.applyOpsCanonical (doc : JSONContent) (S : List LinkOp) : JSONContent :=
  S.foldl JSONContent.applyLinkOp doc

-- ===========================================================================
-- Proof infrastructure: representation predicates on the index
-- ===========================================================================

/-- The index represents the per-block canonical link assignment `L`:
`blockToReqs` stores exactly the non-empty `L b` and membership in
`reqToBlocks` mirrors membership of the requirement id in `L b`. -/
def LinkIndex.Tracks (idx : LinkIndex) (L : String → List LinkedRequirement) : Prop :=
  (∀ b, mapGet idx.blockToReqs b = if L b = [] then none else some (L b)) ∧
  (∀ r b, b ∈ idx.getBlocksForRequirement r ↔ r ∈ (L b).map (fun lr => lr.reqId))

/-- Structural well-formedness: both emulated `Map`s have no duplicate keys
and every emulated `Set` is duplicate-free. -/
def LinkIndex.WF (idx : LinkIndex) : Prop :=
  NodupKeys idx.blockToReqs ∧ NodupKeys idx.reqToBlocks ∧
    ∀ r, (idx.getBlocksForRequirement r).Nodup

/-- Combined representation invariant. -/
def LinkIndex.Good (idx : LinkIndex) (L : String → List LinkedRequirement) : Prop :=
  idx.Tracks L ∧ idx.WF

/-- Effect of `addLink blockId reqId` on the abstract assignment. -/
def updAdd (L : String → List LinkedRequirement) (blockId reqId : String)
    (cov : Coverage) (now : Nat) : String → List LinkedRequirement :=
  fun b => if b = blockId then addRequirementLink (L b) reqId cov now else L b

/-- Effect of `removeLink blockId reqId` on the abstract assignment. -/
def updRemove (L : String → List LinkedRequirement) (blockId reqId : String) :
    String → List LinkedRequirement :=
  fun b => if b = blockId then removeRequirementLink (L b) reqId else L b

/-- Effect of `applyTransactionUpdate meta now` on the abstract assignment. -/
def updMeta (L : String → List LinkedRequirement) (meta : LinkTransactionMeta)
    (now : Nat) : String → List LinkedRequirement :=
  let L1 := meta.removedLinks.foldl (fun M r => updRemove M meta.blockId r) L
  meta.addedLinks.foldl (fun M p => updAdd M meta.blockId p.1 p.2 now) L1

/-- Effect of a meta sequence on the abstract assignment. -/
def updMetas (L : String → List LinkedRequirement)
    (ops : List (LinkTransactionMeta × Nat)) : String → List LinkedRequirement :=
  ops.foldl (fun M p => updMeta M p.1 p.2) L

-- ===========================================================================
-- Concrete documents and states used by witnesses and counterexamples
-- ===========================================================================

/-- A one-text-child paragraph node. -/
def paragraphNode (s : String) : JSONContent := .node "paragraph" none none [] [.text s]

/-- A `docBlock` wrapper with an id, links, and one paragraph of text. -/
def docBlockNode (i : String) (lrs : List LinkedRequirement) (s : String) : JSONContent :=
  .node "docBlock" (some i) (some "paragraph") lrs [paragraphNode s]

/-- A `doc` root. -/
def docRoot (cs : List JSONContent) : JSONContent := .node "doc" none none [] cs

/-- A sample link record for `REQ-1`. -/
def lrREQ1 : LinkedRequirement := ⟨"REQ-1", .full, 1, 0⟩

/-- A sample link record for `REQ-2`. -/
def lrREQ2 : LinkedRequirement := ⟨"REQ-2", .full, 1, 0⟩

/-- A document with two `docBlock`s sharing the id `"b"` (the
duplication-aliasing situation of §9 of the design). -/
def dupIdDoc : JSONContent :=
  docRoot [docBlockNode "b" [lrREQ1] "x", docBlockNode "b" [lrREQ2] "y"]

/-- `b1` unlinked, `b2` linked to `REQ-1`: the base document of the
order-divergence counterexample. -/
def orderDocBase : JSONContent :=
  docRoot [docBlockNode "b1" [] "x", docBlockNode "b2" [lrREQ1] "y"]

/-- A single-block document linking `b` to `REQ-2`. -/
def oneBlockDocREQ2 : JSONContent := docRoot [docBlockNode "b" [lrREQ2] "x"]

/-- A live index that disagrees with `oneBlockDocREQ2` only in the
requirement id. -/
def driftedIdx : LinkIndex := ⟨[("REQ-1", ["b"])], [("b", [lrREQ1])]⟩

/-- A one-block document whose paragraph reads `"a"`. -/
def contentDocA : JSONContent := docRoot [docBlockNode "b" [] "a"]

/-- The same document with the paragraph reading `"z"`. -/
def contentDocZ : JSONContent := docRoot [docBlockNode "b" [] "z"]

/-- A requirement linked to block `b2` only. -/
def reqLinkedToB2 : Requirement :=
  ⟨"R", "t", "o", [], .linked, .toAddress, .mandatory, ["b2"], "f", "fn", 0⟩

/-- A block-metadata record belonging to another document. -/
def otherDocMeta : BlockMetaRecord := ⟨"other|x", "other", "x", [], none⟩

/-- The document record being committed in the GC examples. -/
def commitDocRec : DocumentRecord := ⟨"d", "t", "c", 0, 0, none⟩

/-- The present-block metadata record being committed in the GC examples. -/
def commitBlockMeta : BlockMetaRecord := ⟨"d|b", "d", "b", [], none⟩

/-- A single-block document linking `b1` to `REQ-1`. -/
def oneBlockDocREQ1 : JSONContent := docRoot [docBlockNode "b1" [lrREQ1] "x"]

-- ===========================================================================
-- Further definitions used by the statements below
-- ===========================================================================

/-- A sequence of `addLink` calls (the incremental add path), each with its
block id, requirement id, coverage and `Date.now()` value. -/
def LinkIndex.applyAdds (idx : LinkIndex)
    (adds : List (String × String × Coverage × Nat)) : LinkIndex :=
  adds.foldl (fun i q => i.addLink q.1 q.2.1 q.2.2.1 q.2.2.2) idx

/-- For every block, its stored record list holds at most one `LinkRecord`
per requirement id. -/
def LinkIndex.NodupReqIds (idx : LinkIndex) : Prop :=
  ∀ b, (((mapGet idx.blockToReqs b).getD []).map (fun lr => lr.reqId)).Nodup

-- ===========================================================================
-- Lemmas: the JS Map / Set emulation
-- ===========================================================================

theorem mapGet_mapSet {α : Type} (m : List (String × α)) (k : String) (v : α)
    (k' : String) :
    mapGet (mapSet m k v) k' = if k = k' then some v else mapGet m k' := by
  induction m with
  | nil => by_cases h : k = k' <;> simp [mapSet, mapGet, h]
  | cons p rest ih =>
    obtain ⟨a, b⟩ := p
    by_cases hak : a = k
    · subst hak
      by_cases h : a = k' <;> simp [mapSet, mapGet, h]
    · by_cases h : a = k'
      · have hk : ¬k = k' := fun e => hak (h.trans e.symm)
        have hk2 : ¬k' = k := fun e => hk e.symm
        simp [mapSet, mapGet, hak, h, hk, hk2]
      · simp [mapSet, mapGet, hak, h, ih]

theorem mapGet_mapDelete_ne {α : Type} (m : List (String × α)) (k k' : String)
    (h : k ≠ k') : mapGet (mapDelete m k) k' = mapGet m k' := by
  induction m with
  | nil => simp [mapDelete]
  | cons p rest ih =>
    obtain ⟨a, b⟩ := p
    by_cases hak : a = k
    · have hk' : ¬a = k' := fun e => h (by rw [← hak]; exact e)
      simp [mapDelete, mapGet, hak, hk', h]
    · by_cases h' : a = k'
      · have hk2 : ¬k' = k := fun e => hak (by rw [h']; exact e)
        simp [mapDelete, mapGet, hak, h', hk2]
      · simp [mapDelete, mapGet, hak, h', ih]

theorem mapGet_eq_none_of_not_mem_keys {α : Type} (m : List (String × α))
    (k : String) (h : k ∉ mapKeys m) : mapGet m k = none := by
  induction m with
  | nil => rfl
  | cons p rest ih =>
    simp only [mapKeys, List.map_cons, List.mem_cons, not_or] at h
    have ha : ¬p.1 = k := fun e => h.1 e.symm
    obtain ⟨a, b⟩ := p
    simpa [mapGet, ha] using ih h.2

theorem mem_keys_of_mapGet_isSome {α : Type} (m : List (String × α)) (k : String)
    (h : (mapGet m k).isSome) : k ∈ mapKeys m := by
  by_contra hk
  rw [mapGet_eq_none_of_not_mem_keys m k hk] at h
  simp at h

theorem mapGet_mapDelete_self {α : Type} (m : List (String × α)) (k : String)
    (hm : NodupKeys m) : mapGet (mapDelete m k) k = none := by
  induction m with
  | nil => rfl
  | cons p rest ih =>
    obtain ⟨a, b⟩ := p
    simp only [NodupKeys, mapKeys, List.map_cons, List.nodup_cons] at hm
    by_cases hak : a = k
    · subst hak
      simpa [mapDelete] using mapGet_eq_none_of_not_mem_keys rest a hm.1
    · simpa [mapDelete, mapGet, hak] using ih hm.2

theorem mem_mapKeys_mapSet {α : Type} (m : List (String × α)) (k : String) (v : α)
    (k' : String) : k' ∈ mapKeys (mapSet m k v) ↔ k' ∈ mapKeys m ∨ k' = k := by
  induction m with
  | nil => simp [mapSet]
  | cons p rest ih =>
    obtain ⟨a, b⟩ := p
    by_cases hak : a = k
    · subst hak
      simp [mapSet]
      tauto
    · simp only [mapSet, if_neg hak, mapKeys, List.map_cons, List.mem_cons]
      rw [show List.map Prod.fst (mapSet rest k v) = mapKeys (mapSet rest k v) from rfl]
      rw [ih]
      tauto

theorem nodupKeys_mapSet {α : Type} (m : List (String × α)) (k : String) (v : α)
    (hm : NodupKeys m) : NodupKeys (mapSet m k v) := by
  induction m with
  | nil => exact List.nodup_singleton k
  | cons p rest ih =>
    obtain ⟨a, b⟩ := p
    simp only [NodupKeys, mapKeys, List.map_cons, List.nodup_cons] at hm
    by_cases hak : a = k
    · subst hak
      simpa [NodupKeys, mapSet, List.nodup_cons] using hm
    · simp only [NodupKeys, mapSet, if_neg hak, mapKeys, List.map_cons, List.nodup_cons]
      refine ⟨fun hmem => ?_, ih hm.2⟩
      rcases (mem_mapKeys_mapSet rest k v a).mp hmem with h | h
      · exact hm.1 h
      · exact hak h

theorem mem_mapKeys_mapDelete {α : Type} (m : List (String × α)) (k k' : String)
    (h : k' ∈ mapKeys (mapDelete m k)) : k' ∈ mapKeys m := by
  induction m with
  | nil => simp [mapDelete] at h
  | cons p rest ih =>
    obtain ⟨a, b⟩ := p
    by_cases hak : a = k
    · simp only [mapDelete, if_pos hak] at h
      exact List.mem_cons_of_mem _ h
    · simp only [mapDelete, if_neg hak, mapKeys, List.map_cons, List.mem_cons] at h ⊢
      rcases h with h | h
      · exact Or.inl h
      · exact Or.inr (ih h)

theorem nodupKeys_mapDelete {α : Type} (m : List (String × α)) (k : String)
    (hm : NodupKeys m) : NodupKeys (mapDelete m k) := by
  induction m with
  | nil => simpa [mapDelete] using hm
  | cons p rest ih =>
    obtain ⟨a, b⟩ := p
    simp only [NodupKeys, mapKeys, List.map_cons, List.nodup_cons] at hm
    by_cases hak : a = k
    · simpa [mapDelete, hak] using hm.2
    · simp only [NodupKeys, mapDelete, if_neg hak, mapKeys, List.map_cons, List.nodup_cons]
      exact ⟨fun hmem => hm.1 (mem_mapKeys_mapDelete rest k a hmem), ih hm.2⟩

theorem mem_setAdd (s : List String) (x y : String) :
    y ∈ setAdd s x ↔ y ∈ s ∨ y = x := by
  by_cases h : x ∈ s
  · simp only [setAdd, if_pos h]
    exact ⟨Or.inl, fun hy => hy.elim id (fun hyx => hyx ▸ h)⟩
  · simp [setAdd, if_neg h]

theorem nodup_setAdd (s : List String) (x : String) (hs : s.Nodup) :
    (setAdd s x).Nodup := by
  by_cases h : x ∈ s
  · simpa [setAdd, h]
  · rw [setAdd, if_neg h]
    refine List.nodup_append.mpr ⟨hs, List.nodup_singleton x, ?_⟩
    intro a ha hax
    rw [List.mem_singleton] at hax
    exact h (hax ▸ ha)

theorem mem_setDelete (s : List String) (x y : String) :
    y ∈ setDelete s x ↔ y ∈ s ∧ y ≠ x := by
  simp [setDelete]

theorem nodup_setDelete (s : List String) (x : String) (hs : s.Nodup) :
    (setDelete s x).Nodup :=
  hs.filter _

theorem mapGet_append {α : Type} (m₁ m₂ : List (String × α)) (k : String) :
    mapGet (m₁ ++ m₂) k =
      match mapGet m₁ k with
      | some v => some v
      | none => mapGet m₂ k := by
  induction m₁ with
  | nil => simp [mapGet]
  | cons p rest ih =>
    by_cases h : p.1 = k <;> simp [mapGet, h, ih]

-- ===========================================================================
-- Lemmas: requirement-id membership in the canonical list helpers
-- ===========================================================================

theorem mem_reqIds_addRequirementLink (lrs : List LinkedRequirement) (r : String)
    (c : Coverage) (n : Nat) (r' : String) :
    r' ∈ (addRequirementLink lrs r c n).map (fun lr => lr.reqId) ↔
      r' ∈ lrs.map (fun lr => lr.reqId) ∨ r' = r := by
  unfold addRequirementLink isRequirementLinkedIn createLinkedRequirement
  by_cases h : lrs.any (fun lr => decide (lr.reqId = r))
  · rw [if_pos (by simpa using h)]
    simp only [List.any_eq_true, decide_eq_true_eq] at h
    obtain ⟨lr, hlr, heq⟩ := h
    constructor
    · exact Or.inl
    · rintro (hm | rfl)
      · exact hm
      · exact List.mem_map.mpr ⟨lr, hlr, heq⟩
  · rw [if_neg (by simpa using h)]
    simp

theorem mem_reqIds_removeRequirementLink (lrs : List LinkedRequirement) (r r' : String) :
    r' ∈ (removeRequirementLink lrs r).map (fun lr => lr.reqId) ↔
      r' ∈ lrs.map (fun lr => lr.reqId) ∧ r' ≠ r := by
  unfold removeRequirementLink
  constructor
  · intro h
    obtain ⟨lr, hlr, hid⟩ := List.mem_map.mp h
    have hf := List.mem_filter.mp hlr
    refine ⟨List.mem_map.mpr ⟨lr, hf.1, hid⟩, ?_⟩
    have : lr.reqId ≠ r := by simpa using hf.2
    exact hid ▸ this
  · rintro ⟨h, hne⟩
    obtain ⟨lr, hlr, hid⟩ := List.mem_map.mp h
    exact List.mem_map.mpr ⟨lr, List.mem_filter.mpr ⟨hlr, by simpa using hid ▸ hne⟩, hid⟩

theorem addRequirementLink_ne_nil (lrs : List LinkedRequirement) (r : String)
    (c : Coverage) (n : Nat) (h : lrs ≠ []) : addRequirementLink lrs r c n ≠ [] := by
  unfold addRequirementLink
  by_cases hc : isRequirementLinkedIn lrs r <;> simp [hc, h]

theorem addRequirementLink_nil_ne_nil (r : String) (c : Coverage) (n : Nat) :
    addRequirementLink [] r c n ≠ [] := by
  simp [addRequirementLink, isRequirementLinkedIn]

-- ===========================================================================
-- Lemmas: rtbAdd and its folds
-- ===========================================================================

theorem rtbAdd_get (m : List (String × List String)) (r₀ b₀ r : String) :
    (mapGet (rtbAdd m r₀ b₀) r).getD [] =
      if r₀ = r then setAdd ((mapGet m r₀).getD []) b₀ else (mapGet m r).getD [] := by
  unfold rtbAdd
  rw [mapGet_mapSet]
  by_cases h : r₀ = r <;> simp [h]

theorem nodupKeys_rtbAdd (m : List (String × List String)) (r₀ b₀ : String)
    (hm : NodupKeys m) : NodupKeys (rtbAdd m r₀ b₀) :=
  nodupKeys_mapSet m r₀ _ hm

theorem nodupVals_rtbAdd (m : List (String × List String)) (r₀ b₀ : String)
    (hv : ∀ r, ((mapGet m r).getD []).Nodup) :
    ∀ r, ((mapGet (rtbAdd m r₀ b₀) r).getD []).Nodup := by
  intro r
  rw [rtbAdd_get]
  by_cases h : r₀ = r
  · simpa [h] using nodup_setAdd _ b₀ (hv r₀)
  · simpa [h] using hv r

theorem mem_rtbAddFold (lrs : List LinkedRequirement) (b₀ : String) :
    ∀ (m : List (String × List String)) (r b' : String),
      b' ∈ (mapGet (lrs.foldl (fun m lr => rtbAdd m lr.reqId b₀) m) r).getD [] ↔
        b' ∈ (mapGet m r).getD [] ∨
          (b' = b₀ ∧ r ∈ lrs.map (fun lr => lr.reqId)) := by
  induction lrs with
  | nil => simp
  | cons lr lrs ih =>
    intro m r b'
    rw [List.foldl_cons, ih, rtbAdd_get]
    by_cases h : lr.reqId = r
    · rw [if_pos h]
      rw [mem_setAdd]
      subst h
      simp
      tauto
    · rw [if_neg h]
      have : ¬r = lr.reqId := fun e => h e.symm
      simp [this]

theorem nodupKeys_rtbAddFold (lrs : List LinkedRequirement) (b₀ : String) :
    ∀ m, NodupKeys m →
      NodupKeys (lrs.foldl (fun m lr => rtbAdd m lr.reqId b₀) m) := by
  induction lrs with
  | nil => exact fun m hm => hm
  | cons lr lrs ih => exact fun m hm => ih _ (nodupKeys_rtbAdd m lr.reqId b₀ hm)

theorem nodupVals_rtbAddFold (lrs : List LinkedRequirement) (b₀ : String) :
    ∀ m, (∀ r, ((mapGet m r).getD []).Nodup) →
      ∀ r, ((mapGet (lrs.foldl (fun m lr => rtbAdd m lr.reqId b₀) m) r).getD []).Nodup := by
  induction lrs with
  | nil => exact fun m hm => hm
  | cons lr lrs ih => exact fun m hm => ih _ (nodupVals_rtbAdd m lr.reqId b₀ hm)

-- ===========================================================================
-- Lemmas: normal forms of addLink / removeLink
-- ===========================================================================

theorem mapSet_mapSet {α : Type} (m : List (String × α)) (k : String) (v w : α) :
    mapSet (mapSet m k v) k w = mapSet m k w := by
  induction m with
  | nil => simp [mapSet]
  | cons p rest ih =>
    obtain ⟨a, b⟩ := p
    by_cases hak : a = k
    · simp [mapSet, hak]
    · simp [mapSet, hak, ih]

theorem addLink_eq_of_none (idx : LinkIndex) (b r : String) (c : Coverage) (now : Nat)
    (hb : mapGet idx.blockToReqs b = none) :
    idx.addLink b r c now =
      { blockToReqs := mapSet idx.blockToReqs b (addRequirementLink [] r c now),
        reqToBlocks := rtbAdd idx.reqToBlocks r b } := by
  simp only [LinkIndex.addLink, hb, Option.isSome_none, Bool.false_eq_true, if_false,
    mapGet_mapSet, if_pos rfl, Option.getD_some, mapSet_mapSet]
  rfl

theorem addLink_eq_of_some (idx : LinkIndex) (b r : String) (c : Coverage) (now : Nat)
    (reqs : List LinkedRequirement) (hb : mapGet idx.blockToReqs b = some reqs) :
    idx.addLink b r c now =
      { blockToReqs := mapSet idx.blockToReqs b (addRequirementLink reqs r c now),
        reqToBlocks := rtbAdd idx.reqToBlocks r b } := by
  simp only [LinkIndex.addLink, hb, Option.isSome_some, if_true, Option.getD_some]
  rfl

theorem removeLink_btr_of_none (idx : LinkIndex) (b r : String)
    (hb : mapGet idx.blockToReqs b = none) :
    (idx.removeLink b r).blockToReqs = idx.blockToReqs := by
  simp only [LinkIndex.removeLink, hb]

theorem removeLink_btr_of_some (idx : LinkIndex) (b r : String)
    (reqs : List LinkedRequirement) (hb : mapGet idx.blockToReqs b = some reqs) :
    (idx.removeLink b r).blockToReqs =
      if (removeRequirementLink reqs r).length > 0 then
        mapSet idx.blockToReqs b (removeRequirementLink reqs r)
      else mapDelete idx.blockToReqs b := by
  simp only [LinkIndex.removeLink, hb]
  rfl

theorem removeLink_rtb_of_none (idx : LinkIndex) (b r : String)
    (hr : mapGet idx.reqToBlocks r = none) :
    (idx.removeLink b r).reqToBlocks = idx.reqToBlocks := by
  simp only [LinkIndex.removeLink, hr]

theorem removeLink_rtb_of_some (idx : LinkIndex) (b r : String)
    (blocks : List String) (hr : mapGet idx.reqToBlocks r = some blocks) :
    (idx.removeLink b r).reqToBlocks =
      if (setDelete blocks b).length = 0 then mapDelete idx.reqToBlocks r
      else mapSet idx.reqToBlocks r (setDelete blocks b) := by
  simp only [LinkIndex.removeLink, hr]

theorem tracks_congr (idx : LinkIndex) (L L' : String → List LinkedRequirement)
    (h : idx.Tracks L) (he : ∀ b, L b = L' b) : idx.Tracks L' := by
  have : L = L' := funext he
  exact this ▸ h

-- ===========================================================================
-- Lemmas: preservation of the representation invariant by addLink
-- ===========================================================================

theorem addLink_nf (idx : LinkIndex) (L : String → List LinkedRequirement)
    (b r : String) (c : Coverage) (now : Nat)
    (h1 : ∀ b', mapGet idx.blockToReqs b' = if L b' = [] then none else some (L b')) :
    idx.addLink b r c now =
      { blockToReqs := mapSet idx.blockToReqs b (addRequirementLink (L b) r c now),
        reqToBlocks := rtbAdd idx.reqToBlocks r b } := by
  have hb := h1 b
  by_cases hLb : L b = []
  · rw [hLb, if_pos rfl] at hb
    rw [addLink_eq_of_none idx b r c now hb, hLb]
  · rw [if_neg hLb] at hb
    exact addLink_eq_of_some idx b r c now (L b) hb

theorem addRequirementLink_ne_nil_any (lrs : List LinkedRequirement) (r : String)
    (c : Coverage) (n : Nat) : addRequirementLink lrs r c n ≠ [] := by
  by_cases hLb : lrs = []
  · rw [hLb]; exact addRequirementLink_nil_ne_nil r c n
  · exact addRequirementLink_ne_nil lrs r c n hLb

theorem exists_reqId_addRequirementLink (lrs : List LinkedRequirement) (r : String)
    (c : Coverage) (n : Nat) : ∃ a ∈ addRequirementLink lrs r c n, a.reqId = r := by
  unfold addRequirementLink isRequirementLinkedIn
  by_cases h : lrs.any (fun lr => decide (lr.reqId = r))
  · rw [if_pos (by simpa using h)]
    simp only [List.any_eq_true, decide_eq_true_eq] at h
    obtain ⟨lr, hlr, heq⟩ := h
    exact ⟨lr, hlr, heq⟩
  · rw [if_neg (by simpa using h)]
    exact ⟨createLinkedRequirement r c n, by simp, rfl⟩

theorem good_addLink (idx : LinkIndex) (L : String → List LinkedRequirement)
    (b r : String) (c : Coverage) (now : Nat) (h : idx.Good L) :
    (idx.addLink b r c now).Good (updAdd L b r c now) := by
  obtain ⟨⟨h1, h2⟩, hwb, hwr, hwv⟩ := h
  simp only [LinkIndex.getBlocksForRequirement] at h2 hwv
  rw [addLink_nf idx L b r c now h1]
  refine ⟨⟨?_, ?_⟩, ?_, ?_, ?_⟩
  · intro b'
    by_cases hb' : b = b'
    · subst hb'
      have hne := addRequirementLink_ne_nil_any (L b) r c now
      simp [mapGet_mapSet, updAdd, hne]
    · have hne : ¬b' = b := fun e => hb' e.symm
      simp only [mapGet_mapSet, if_neg hb', updAdd, if_neg hne]
      exact h1 b'
  · intro r' b'
    simp only [LinkIndex.getBlocksForRequirement]
    rw [rtbAdd_get]
    by_cases hr' : r = r'
    · subst hr'
      rw [if_pos rfl, mem_setAdd]
      by_cases hb' : b' = b
      · constructor
        · intro _
          simp only [updAdd, if_pos hb']
          obtain ⟨a, ha, har⟩ := exists_reqId_addRequirementLink (L b') r c now
          exact List.mem_map.mpr ⟨a, ha, har⟩
        · intro _
          exact Or.inr hb'
      · simp only [updAdd, if_neg hb']
        rw [h2 r b']
        simp [hb']
    · rw [if_neg hr']
      by_cases hb' : b' = b
      · simp only [updAdd, if_pos hb', mem_reqIds_addRequirementLink]
        rw [h2 r' b']
        constructor
        · intro h
          exact Or.inl h
        · intro h
          rcases h with h | e
          · exact h
          · exact absurd e.symm hr'
      · simp only [updAdd, if_neg hb']
        exact h2 r' b'
  · exact nodupKeys_mapSet _ b _ hwb
  · exact nodupKeys_rtbAdd _ r b hwr
  · intro r'
    simp only [LinkIndex.getBlocksForRequirement]
    exact nodupVals_rtbAdd _ r b hwv r'

-- ===========================================================================
-- Lemmas: preservation of the representation invariant by removeLink
-- ===========================================================================

theorem good_removeLink (idx : LinkIndex) (L : String → List LinkedRequirement)
    (b r : String) (h : idx.Good L) :
    (idx.removeLink b r).Good (updRemove L b r) := by
  obtain ⟨⟨h1, h2⟩, hwb, hwr, hwv⟩ := h
  simp only [LinkIndex.getBlocksForRequirement] at h2 hwv
  have hb := h1 b
  have factA : ∀ r' b', r' ≠ r →
      (r' ∈ (updRemove L b r b').map (fun lr => lr.reqId) ↔
        r' ∈ (L b').map (fun lr => lr.reqId)) := by
    intro r' b' hne
    by_cases hb' : b' = b
    · simp only [updRemove, hb', eq_self_iff_true, if_true]
      rw [mem_reqIds_removeRequirementLink]
      simp [hne]
    · simp [updRemove, hb']
  have factB : ∀ b', (r ∈ (updRemove L b r b').map (fun lr => lr.reqId) ↔
      (b' ≠ b ∧ r ∈ (L b').map (fun lr => lr.reqId))) := by
    intro b'
    by_cases hb' : b' = b
    · simp only [updRemove, hb', eq_self_iff_true, if_true]
      rw [mem_reqIds_removeRequirementLink]
      simp
    · simp [updRemove, hb']
  refine ⟨⟨?_, ?_⟩, ?_, ?_, ?_⟩
  · intro b'
    by_cases hLb : L b = []
    · rw [hLb, if_pos rfl] at hb
      rw [removeLink_btr_of_none idx b r hb]
      by_cases hb' : b' = b
      · rw [hb', hb]
        simp [updRemove, hLb, removeRequirementLink]
      · simp only [updRemove, if_neg hb']
        exact h1 b'
    · rw [if_neg hLb] at hb
      rw [removeLink_btr_of_some idx b r (L b) hb]
      by_cases hf : removeRequirementLink (L b) r = []
      · rw [hf]
        simp only [List.length_nil, gt_iff_lt, lt_self_iff_false, if_false]
        by_cases hb' : b' = b
        · rw [hb']
          rw [mapGet_mapDelete_self _ _ hwb]
          simp [updRemove, hf]
        · rw [mapGet_mapDelete_ne _ b b' (fun e => hb' e.symm)]
          simp only [updRemove, if_neg hb']
          exact h1 b'
      · have hlen : (removeRequirementLink (L b) r).length > 0 :=
          List.length_pos.mpr hf
        rw [if_pos hlen]
        by_cases hb' : b' = b
        · rw [hb']
          rw [mapGet_mapSet, if_pos rfl]
          simp [updRemove, hf]
        · rw [mapGet_mapSet, if_neg (fun e : b = b' => hb' e.symm)]
          simp only [updRemove, if_neg hb']
          exact h1 b'
  · intro r' b'
    simp only [LinkIndex.getBlocksForRequirement]
    cases hr : mapGet idx.reqToBlocks r with
    | none =>
      rw [removeLink_rtb_of_none idx b r hr]
      by_cases hr' : r' = r
      · rw [hr', hr]
        simp only [Option.getD_none, List.not_mem_nil, false_iff]
        rw [factB b']
        rintro ⟨hne, hmem⟩
        have hx := (h2 r b').mpr hmem
        rw [hr] at hx
        simp at hx
      · rw [factA r' b' hr']
        exact h2 r' b'
    | some blocks =>
      rw [removeLink_rtb_of_some idx b r blocks hr]
      by_cases hrem : (setDelete blocks b).length = 0
      · rw [if_pos hrem]
        have hremnil : setDelete blocks b = [] := List.length_eq_zero.mp hrem
        by_cases hr' : r' = r
        · rw [hr']
          rw [mapGet_mapDelete_self _ _ hwr]
          simp only [Option.getD_none, List.not_mem_nil, false_iff]
          rw [factB b']
          rintro ⟨hne, hmem⟩
          have hmem2 := (h2 r b').mpr hmem
          rw [hr] at hmem2
          simp only [Option.getD_some] at hmem2
          have hd : b' ∈ setDelete blocks b := (mem_setDelete blocks b b').mpr ⟨hmem2, hne⟩
          rw [hremnil] at hd
          simp at hd
        · rw [mapGet_mapDelete_ne _ r r' (fun e => hr' e.symm)]
          rw [factA r' b' hr']
          exact h2 r' b'
      · rw [if_neg hrem]
        by_cases hr' : r' = r
        · rw [hr']
          rw [mapGet_mapSet, if_pos rfl]
          simp only [Option.getD_some]
          rw [mem_setDelete, factB b']
          have h2' := h2 r b'
          rw [hr] at h2'
          simp only [Option.getD_some] at h2'
          rw [h2']
          tauto
        · rw [mapGet_mapSet, if_neg (fun e : r = r' => hr' e.symm)]
          rw [factA r' b' hr']
          exact h2 r' b'
  · cases hbg : mapGet idx.blockToReqs b with
    | none => rw [removeLink_btr_of_none idx b r hbg]; exact hwb
    | some reqs =>
      rw [removeLink_btr_of_some idx b r reqs hbg]
      by_cases hlen : (removeRequirementLink reqs r).length > 0
      · rw [if_pos hlen]
        exact nodupKeys_mapSet _ b _ hwb
      · rw [if_neg hlen]
        exact nodupKeys_mapDelete _ b hwb
  · cases hrg : mapGet idx.reqToBlocks r with
    | none => rw [removeLink_rtb_of_none idx b r hrg]; exact hwr
    | some blocks =>
      rw [removeLink_rtb_of_some idx b r blocks hrg]
      by_cases hlen : (setDelete blocks b).length = 0
      · rw [if_pos hlen]
        exact nodupKeys_mapDelete _ r hwr
      · rw [if_neg hlen]
        exact nodupKeys_mapSet _ r _ hwr
  · intro r'
    simp only [LinkIndex.getBlocksForRequirement]
    cases hrg : mapGet idx.reqToBlocks r with
    | none => rw [removeLink_rtb_of_none idx b r hrg]; exact hwv r'
    | some blocks =>
      rw [removeLink_rtb_of_some idx b r blocks hrg]
      have hbn : blocks.Nodup := by
        have hc := hwv r
        rw [hrg] at hc
        simpa using hc
      by_cases hlen : (setDelete blocks b).length = 0
      · rw [if_pos hlen]
        by_cases hr' : r' = r
        · rw [hr', mapGet_mapDelete_self _ _ hwr]
          simp
        · rw [mapGet_mapDelete_ne _ r r' (fun e => hr' e.symm)]
          exact hwv r'
      · rw [if_neg hlen]
        by_cases hr' : r' = r
        · rw [hr', mapGet_mapSet, if_pos rfl]
          simpa using nodup_setDelete blocks b hbn
        · rw [mapGet_mapSet, if_neg (fun e : r = r' => hr' e.symm)]
          exact hwv r'

-- ===========================================================================
-- Lemmas: preservation through applyTransactionUpdate and meta sequences
-- ===========================================================================

theorem good_congr (idx : LinkIndex) (L L' : String → List LinkedRequirement)
    (h : idx.Good L) (he : ∀ b, L b = L' b) : idx.Good L' := by
  have : L = L' := funext he
  exact this ▸ h

theorem good_removeFold (b : String) (rs : List String) :
    ∀ (idx : LinkIndex) (L : String → List LinkedRequirement), idx.Good L →
      (rs.foldl (fun i r => i.removeLink b r) idx).Good
        (rs.foldl (fun M r => updRemove M b r) L) := by
  induction rs with
  | nil => exact fun idx L h => h
  | cons r rs ih =>
    intro idx L h
    exact ih _ _ (good_removeLink idx L b r h)

theorem good_addFold (b : String) (now : Nat) (ps : List (String × Coverage)) :
    ∀ (idx : LinkIndex) (L : String → List LinkedRequirement), idx.Good L →
      (ps.foldl (fun i p => i.addLink b p.1 p.2 now) idx).Good
        (ps.foldl (fun M p => updAdd M b p.1 p.2 now) L) := by
  induction ps with
  | nil => exact fun idx L h => h
  | cons p ps ih =>
    intro idx L h
    exact ih _ _ (good_addLink idx L b p.1 p.2 now h)

theorem good_applyTransactionUpdate (idx : LinkIndex)
    (L : String → List LinkedRequirement) (meta : LinkTransactionMeta) (now : Nat)
    (h : idx.Good L) :
    (idx.applyTransactionUpdate meta now).Good (updMeta L meta now) := by
  unfold LinkIndex.applyTransactionUpdate updMeta
  exact good_addFold meta.blockId now meta.addedLinks _ _
    (good_removeFold meta.blockId meta.removedLinks idx L h)

theorem good_applyMetas (ops : List (LinkTransactionMeta × Nat)) :
    ∀ (idx : LinkIndex) (L : String → List LinkedRequirement), idx.Good L →
      (idx.applyMetas ops).Good (updMetas L ops) := by
  induction ops with
  | nil => exact fun idx L h => h
  | cons p ops ih =>
    intro idx L h
    exact ih _ _ (good_applyTransactionUpdate idx L p.1 p.2 h)

-- ===========================================================================
-- Lemmas: the rebuild traversal as a fold over the canonical block list
-- ===========================================================================

mutual

theorem traverseAndIndex_eq_foldl :
    ∀ (n : JSONContent) (idx : LinkIndex),
      idx.traverseAndIndex n = n.canonBlocks.foldl LinkIndex.insertCanon idx
  | .text _, idx => by
    simp [LinkIndex.traverseAndIndex, JSONContent.canonBlocks]
  | .node ty id bty lrs content, idx => by
    simp only [LinkIndex.traverseAndIndex, JSONContent.canonBlocks, List.foldl_append]
    rw [traverseList_eq_foldl content]
    congr 1
    cases id with
    | none => simp [LinkIndex.indexNode]
    | some blockId =>
      by_cases h : ty = "docBlock"
      · simp [LinkIndex.indexNode, h]
      · simp [LinkIndex.indexNode, h]

theorem traverseList_eq_foldl :
    ∀ (cs : List JSONContent) (idx : LinkIndex),
      idx.traverseList cs =
        (JSONContent.canonBlocksList cs).foldl LinkIndex.insertCanon idx
  | [], idx => by
    simp [LinkIndex.traverseList, JSONContent.canonBlocksList]
  | c :: cs, idx => by
    simp only [LinkIndex.traverseList, JSONContent.canonBlocksList, List.foldl_append]
    rw [traverseAndIndex_eq_foldl c idx, traverseList_eq_foldl cs]

end

theorem good_empty : LinkIndex.empty.Good (fun _ => []) := by
  refine ⟨⟨?_, ?_⟩, ?_, ?_, ?_⟩ <;>
    simp [LinkIndex.empty, mapGet, LinkIndex.getBlocksForRequirement, NodupKeys,
      List.nodup_nil]

theorem good_insertCanon_fresh (idx : LinkIndex)
    (L : String → List LinkedRequirement) (e : String × List LinkedRequirement)
    (h : idx.Good L) (hLe : L e.1 = []) :
    (idx.insertCanon e).Good (fun b => if b = e.1 then e.2 else L b) := by
  by_cases he : e.2.isEmpty
  · rw [LinkIndex.insertCanon, if_pos he]
    refine good_congr idx L _ h ?_
    intro b
    by_cases hb : b = e.1
    · rw [if_pos hb, hb, hLe]
      exact (List.isEmpty_iff.mp he).symm
    · rw [if_neg hb]
  · obtain ⟨⟨h1, h2⟩, hwb, hwr, hwv⟩ := h
    simp only [LinkIndex.getBlocksForRequirement] at h2 hwv
    rw [LinkIndex.insertCanon, if_neg he]
    have hene : e.2 ≠ [] := fun hh => he (by rw [hh]; rfl)
    refine ⟨⟨?_, ?_⟩, ?_, ?_, ?_⟩
    · intro b
      by_cases hb : b = e.1
      · rw [hb]
        simp [mapGet_mapSet, hene]
      · simp only [mapGet_mapSet, if_neg (fun ee : e.1 = b => hb ee.symm), if_neg hb]
        exact h1 b
    · intro r b'
      simp only [LinkIndex.getBlocksForRequirement]
      rw [mem_rtbAddFold]
      by_cases hb' : b' = e.1
      · rw [h2 r b', hb', hLe]
        simp
      · rw [h2 r b']
        simp [hb']
    · exact nodupKeys_mapSet _ e.1 e.2 hwb
    · exact nodupKeys_rtbAddFold e.2 e.1 _ hwr
    · intro r
      simp only [LinkIndex.getBlocksForRequirement]
      exact nodupVals_rtbAddFold e.2 e.1 _ hwv r

theorem good_insertCanon_foldE (E : List (String × List LinkedRequirement))
    (hE : NodupKeys E) :
    (E.foldl LinkIndex.insertCanon LinkIndex.empty).Good
      (fun b => (mapGet E b).getD []) := by
  induction E using List.reverseRecOn with
  | nil =>
    exact good_congr _ _ _ good_empty (fun b => by simp [mapGet])
  | append_singleton E e ih =>
    have hsplit : NodupKeys E ∧ e.1 ∉ mapKeys E := by
      rw [NodupKeys, mapKeys, List.map_append] at hE
      rw [List.nodup_append] at hE
      refine ⟨hE.1, fun hmem => ?_⟩
      exact hE.2.2 hmem (by simp)
    have hget : mapGet E e.1 = none :=
      mapGet_eq_none_of_not_mem_keys E e.1 hsplit.2
    rw [List.foldl_append]
    simp only [List.foldl_cons, List.foldl_nil]
    have step := good_insertCanon_fresh (E.foldl LinkIndex.insertCanon LinkIndex.empty)
      (fun b => (mapGet E b).getD []) e (ih hsplit.1)
      (by show (mapGet E e.1).getD [] = []; rw [hget]; rfl)
    refine good_congr _ _ _ step ?_
    intro b
    rw [mapGet_append]
    by_cases hb : b = e.1
    · rw [if_pos hb, hb, hget]
      simp [mapGet]
    · rw [if_neg hb]
      cases hg : mapGet E b with
      | none =>
        have hne : ¬e.1 = b := fun e1b => hb e1b.symm
        simp [mapGet, hg, hne]
      | some v => simp [hg]

theorem good_rebuildFromDocument (D : JSONContent) (hD : D.NodupBlockIds) :
    (LinkIndex.rebuildFromDocument D).Good D.canonLinks := by
  unfold LinkIndex.rebuildFromDocument
  rw [traverseAndIndex_eq_foldl]
  refine good_congr _ _ _ (good_insertCanon_foldE D.canonBlocks hD) ?_
  intro b
  rfl

theorem wf_insertCanon (idx : LinkIndex) (e : String × List LinkedRequirement)
    (h : idx.WF) : (idx.insertCanon e).WF := by
  obtain ⟨hwb, hwr, hwv⟩ := h
  simp only [LinkIndex.getBlocksForRequirement] at hwv
  by_cases he : e.2.isEmpty
  · rw [LinkIndex.insertCanon, if_pos he]
    exact ⟨hwb, hwr, fun r => by
      simpa only [LinkIndex.getBlocksForRequirement] using hwv r⟩
  · rw [LinkIndex.insertCanon, if_neg he]
    refine ⟨nodupKeys_mapSet _ e.1 e.2 hwb, nodupKeys_rtbAddFold e.2 e.1 _ hwr, ?_⟩
    intro r
    simp only [LinkIndex.getBlocksForRequirement]
    exact nodupVals_rtbAddFold e.2 e.1 _ hwv r

theorem wf_foldl_insertCanon (E : List (String × List LinkedRequirement)) :
    ∀ idx : LinkIndex, idx.WF → (E.foldl LinkIndex.insertCanon idx).WF := by
  induction E with
  | nil => exact fun idx h => h
  | cons e E ih => exact fun idx h => ih _ (wf_insertCanon idx e h)

theorem wf_empty : LinkIndex.empty.WF := by
  refine ⟨?_, ?_, ?_⟩ <;>
    simp [LinkIndex.empty, mapGet, LinkIndex.getBlocksForRequirement, NodupKeys,
      List.nodup_nil]

theorem wf_rebuildFromDocument (D : JSONContent) :
    (LinkIndex.rebuildFromDocument D).WF := by
  unfold LinkIndex.rebuildFromDocument
  rw [traverseAndIndex_eq_foldl]
  exact wf_foldl_insertCanon D.canonBlocks LinkIndex.empty wf_empty

-- ===========================================================================
-- Lemmas: canonical application of operations and the flat block list
-- ===========================================================================

mutual

theorem canonBlocks_applyLinkOp :
    ∀ (n : JSONContent) (op : LinkOp),
      (n.applyLinkOp op).canonBlocks =
        n.canonBlocks.map
          (fun p => (p.1, if p.1 = op.blockId then op.applyToList p.2 else p.2))
  | .text _, op => by
    simp [JSONContent.applyLinkOp, JSONContent.canonBlocks]
  | .node ty id bty lrs content, op => by
    simp only [JSONContent.applyLinkOp, JSONContent.canonBlocks, List.map_append]
    rw [canonBlocksList_applyLinkOp content op]
    congr 1
    cases id with
    | none => simp
    | some blockId =>
      by_cases hty : ty = "docBlock"
      · by_cases hid : blockId = op.blockId
        · simp [hty, hid]
        · have : ¬(some blockId = some op.blockId) := by simpa using hid
          simp [hty, hid, this]
      · simp [hty]

theorem canonBlocksList_applyLinkOp :
    ∀ (cs : List JSONContent) (op : LinkOp),
      JSONContent.canonBlocksList (JSONContent.applyLinkOpList cs op) =
        (JSONContent.canonBlocksList cs).map
          (fun p => (p.1, if p.1 = op.blockId then op.applyToList p.2 else p.2))
  | [], op => by
    simp [JSONContent.applyLinkOpList, JSONContent.canonBlocksList]
  | c :: cs, op => by
    simp only [JSONContent.applyLinkOpList, JSONContent.canonBlocksList, List.map_append]
    rw [canonBlocks_applyLinkOp c op, canonBlocksList_applyLinkOp cs op]

end

theorem mapGet_canonUpdate (E : List (String × List LinkedRequirement)) (op : LinkOp)
    (k : String) :
    mapGet (E.map (fun p => (p.1, if p.1 = op.blockId then op.applyToList p.2 else p.2))) k =
      (mapGet E k).map (fun v => if k = op.blockId then op.applyToList v else v) := by
  induction E with
  | nil => simp [mapGet]
  | cons p rest ih =>
    by_cases h : p.1 = k
    · rw [← h]
      simp [mapGet, ih]
    · simp [mapGet, h, ih]

theorem canonLinks_applyLinkOp (doc : JSONContent) (op : LinkOp)
    (hop : doc.docHasBlock op.blockId = true) :
    ∀ b, (doc.applyLinkOp op).canonLinks b =
      if b = op.blockId then op.applyToList (doc.canonLinks b) else doc.canonLinks b := by
  intro b
  unfold JSONContent.canonLinks
  rw [canonBlocks_applyLinkOp, mapGet_canonUpdate]
  by_cases hb : b = op.blockId
  · rw [if_pos hb, hb]
    unfold JSONContent.docHasBlock at hop
    cases hg : mapGet doc.canonBlocks op.blockId with
    | none => rw [hg] at hop; simp at hop
    | some v => simp [hg]
  · rw [if_neg hb]
    cases hg : mapGet doc.canonBlocks b with
    | none => simp
    | some v => simp [hb]

theorem keys_canonBlocks_applyLinkOp (doc : JSONContent) (op : LinkOp) :
    mapKeys (doc.applyLinkOp op).canonBlocks = mapKeys doc.canonBlocks := by
  rw [canonBlocks_applyLinkOp]
  simp [mapKeys, List.map_map]

theorem nodupBlockIds_applyLinkOp (doc : JSONContent) (op : LinkOp)
    (h : doc.NodupBlockIds) : (doc.applyLinkOp op).NodupBlockIds := by
  unfold JSONContent.NodupBlockIds at h ⊢
  rw [NodupKeys, keys_canonBlocks_applyLinkOp]
  exact h

theorem docHasBlock_applyLinkOp (doc : JSONContent) (op : LinkOp) (b : String) :
    (doc.applyLinkOp op).docHasBlock b = doc.docHasBlock b := by
  unfold JSONContent.docHasBlock
  rw [canonBlocks_applyLinkOp, mapGet_canonUpdate]
  cases mapGet doc.canonBlocks b <;> simp

theorem updMeta_op (L : String → List LinkedRequirement) (op : LinkOp) :
    updMeta L op.meta op.now =
      fun b => if b = op.blockId then op.applyToList (L b) else L b := by
  funext b
  cases op with
  | link b₀ r c n =>
    simp [updMeta, LinkOp.meta, LinkOp.now, LinkOp.blockId, updAdd, LinkOp.applyToList]
  | unlink b₀ r =>
    simp [updMeta, LinkOp.meta, LinkOp.now, LinkOp.blockId, updRemove, LinkOp.applyToList]

-- ===========================================================================
-- Lemmas: the incremental path simulates the canonical path
-- ===========================================================================

theorem applyOpsIncremental_cons (idx : LinkIndex) (op : LinkOp) (S : List LinkOp) :
    idx.applyOpsIncremental (op :: S) =
      (idx.applyTransactionUpdate op.meta op.now).applyOpsIncremental S := rfl

theorem applyOpsCanonical_cons (doc : JSONContent) (op : LinkOp) (S : List LinkOp) :
    doc.applyOpsCanonical (op :: S) = (doc.applyLinkOp op).applyOpsCanonical S := rfl

theorem good_applyOpsIncremental (S : List LinkOp) :
    ∀ doc : JSONContent, doc.NodupBlockIds →
      (∀ op ∈ S, doc.docHasBlock op.blockId = true) →
      ∀ idx : LinkIndex, idx.Good doc.canonLinks →
        (idx.applyOpsIncremental S).Good (doc.applyOpsCanonical S).canonLinks := by
  induction S with
  | nil =>
    intro doc _ _ idx h
    exact h
  | cons op S ih =>
    intro doc hD hS idx h
    rw [applyOpsIncremental_cons, applyOpsCanonical_cons]
    have hop : doc.docHasBlock op.blockId = true := hS op (List.mem_cons_self op S)
    have hcl : (doc.applyLinkOp op).canonLinks =
        updMeta doc.canonLinks op.meta op.now := by
      funext b
      rw [updMeta_op]
      exact canonLinks_applyLinkOp doc op hop b
    have hstep := good_applyTransactionUpdate idx doc.canonLinks op.meta op.now h
    rw [← hcl] at hstep
    exact ih (doc.applyLinkOp op) (nodupBlockIds_applyLinkOp doc op hD)
      (fun op' hmem => by
        rw [docHasBlock_applyLinkOp]
        exact hS op' (List.mem_cons_of_mem op hmem))
      _ hstep

-- ===========================================================================
-- Lemmas: comparing two indices that represent the same assignment
-- ===========================================================================

theorem mem_iff_mapGet {α : Type} (m : List (String × α)) (hm : NodupKeys m)
    (k : String) (v : α) : (k, v) ∈ m ↔ mapGet m k = some v := by
  induction m with
  | nil => simp [mapGet]
  | cons p rest ih =>
    obtain ⟨a, b⟩ := p
    simp only [NodupKeys, mapKeys, List.map_cons, List.nodup_cons] at hm
    constructor
    · intro hmem
      rcases List.mem_cons.mp hmem with h | h
      · obtain ⟨hk, hv⟩ := Prod.mk.injEq k v a b ▸ h
        rw [hk, hv]
        simp [mapGet]
      · have hk : k ∈ mapKeys rest := List.mem_map.mpr ⟨(k, v), h, rfl⟩
        have hak : ¬a = k := fun e => hm.1 (e ▸ hk)
        simpa [mapGet, hak] using (ih hm.2).mp h
    · intro hget
      by_cases hak : a = k
      · rw [mapGet, if_pos hak] at hget
        have : b = v := by injection hget
        exact List.mem_cons.mpr (Or.inl (by rw [← hak, this]))
      · rw [mapGet, if_neg hak] at hget
        exact List.mem_cons.mpr (Or.inr ((ih hm.2).mpr hget))

theorem alist_perm_of_get_eq {α : Type} (m₁ m₂ : List (String × α))
    (h₁ : NodupKeys m₁) (h₂ : NodupKeys m₂)
    (hg : ∀ k, mapGet m₁ k = mapGet m₂ k) : m₁.Perm m₂ := by
  rw [List.perm_ext_iff_of_nodup (List.Nodup.of_map Prod.fst h₁)
    (List.Nodup.of_map Prod.fst h₂)]
  intro ⟨k, v⟩
  rw [mem_iff_mapGet m₁ h₁ k v, mem_iff_mapGet m₂ h₂ k v, hg k]

theorem getTotalLinkCount_congr (idx₁ idx₂ : LinkIndex)
    (hp : idx₁.blockToReqs.Perm idx₂.blockToReqs) :
    idx₁.getTotalLinkCount = idx₂.getTotalLinkCount := by
  unfold LinkIndex.getTotalLinkCount
  exact List.Perm.sum_eq (hp.map _)

theorem totalLinkCount_eq_of_good (idx₁ idx₂ : LinkIndex)
    (L : String → List LinkedRequirement) (h₁ : idx₁.Good L) (h₂ : idx₂.Good L) :
    idx₁.getTotalLinkCount = idx₂.getTotalLinkCount :=
  getTotalLinkCount_congr idx₁ idx₂
    (alist_perm_of_get_eq _ _ h₁.2.1 h₂.2.1
      (fun b => (h₁.1.1 b).trans (h₂.1.1 b).symm))

theorem getBlocks_perm_of_good (idx₁ idx₂ : LinkIndex)
    (L : String → List LinkedRequirement) (h₁ : idx₁.Good L) (h₂ : idx₂.Good L)
    (r : String) :
    (idx₁.getBlocksForRequirement r).Perm (idx₂.getBlocksForRequirement r) := by
  rw [List.perm_ext_iff_of_nodup (h₁.2.2.2 r) (h₂.2.2.2 r)]
  intro b
  rw [h₁.1.2 r b, h₂.1.2 r b]

-- ===========================================================================
-- Lemmas: coalescing of the add path
-- ===========================================================================

theorem nodupReqIds_addLink (idx : LinkIndex) (b r : String) (c : Coverage)
    (now : Nat) (h : idx.NodupReqIds) : (idx.addLink b r c now).NodupReqIds := by
  have key : ∀ reqs : List LinkedRequirement,
      (reqs.map (fun lr => lr.reqId)).Nodup →
      ((addRequirementLink reqs r c now).map (fun lr => lr.reqId)).Nodup := by
    intro reqs hreqs
    unfold addRequirementLink isRequirementLinkedIn
    by_cases hany : reqs.any (fun lr => decide (lr.reqId = r))
    · rw [if_pos (by simpa using hany)]
      exact hreqs
    · rw [if_neg (by simpa using hany)]
      rw [List.map_append]
      refine List.nodup_append.mpr ⟨hreqs, List.nodup_singleton _, ?_⟩
      intro x hx hx1
      simp only [List.any_eq_true, decide_eq_true_eq, not_exists, not_and] at hany
      simp only [createLinkedRequirement, List.map_cons, List.map_nil,
        List.mem_singleton] at hx1
      obtain ⟨lr, hlr, hid⟩ := List.mem_map.mp hx
      exact hany lr hlr (by rw [hid, hx1])
  intro b'
  cases hg : mapGet idx.blockToReqs b with
  | none =>
    rw [addLink_eq_of_none idx b r c now hg]
    by_cases hb' : b = b'
    · rw [← hb']
      rw [mapGet_mapSet, if_pos rfl]
      exact key [] (by simp)
    · rw [mapGet_mapSet, if_neg hb']
      exact h b'
  | some reqs =>
    rw [addLink_eq_of_some idx b r c now reqs hg]
    by_cases hb' : b = b'
    · rw [← hb']
      rw [mapGet_mapSet, if_pos rfl]
      refine key reqs ?_
      have hh := h b
      rw [hg] at hh
      simpa using hh
    · rw [mapGet_mapSet, if_neg hb']
      exact h b'

theorem nodupReqIds_applyAdds (adds : List (String × String × Coverage × Nat)) :
    ∀ idx : LinkIndex, idx.NodupReqIds → (idx.applyAdds adds).NodupReqIds := by
  induction adds with
  | nil => exact fun idx h => h
  | cons q adds ih =>
    exact fun idx h => ih _ (nodupReqIds_addLink idx q.1 q.2.1 q.2.2.1 q.2.2.2 h)

-- ===========================================================================
-- Lemmas: findBlock and block existence
-- ===========================================================================

theorem mapGet_isSome_of_mem_keys {α : Type} (m : List (String × α)) (k : String)
    (h : k ∈ mapKeys m) : (mapGet m k).isSome := by
  induction m with
  | nil => simp at h
  | cons p rest ih =>
    by_cases hp : p.1 = k
    · cases p
      simp only [mapGet]
      rw [if_pos hp]
      rfl
    · cases p
      simp only [mapKeys, List.map_cons, List.mem_cons] at h
      rcases h with h | h
      · exact absurd h.symm hp
      · simpa [mapGet, hp] using ih h

mutual

theorem findBlockNode_eq_none :
    ∀ (blockId : String) (n : JSONContent),
      blockId ∉ mapKeys n.canonBlocks → findBlockNode blockId n = none
  | _, .text _, _ => rfl
  | bId, .node ty id bty lrs content, h => by
    simp only [JSONContent.canonBlocks, mapKeys, List.map_append, List.mem_append,
      not_or] at h
    rw [findBlockNode]
    have hcond : ¬(ty = "docBlock" ∧ id = some bId) := by
      rintro ⟨hty, hid⟩
      apply h.1
      simp [hty, hid]
    rw [if_neg hcond]
    exact findBlockList_eq_none bId content 0 h.2

theorem findBlockList_eq_none :
    ∀ (blockId : String) (cs : List JSONContent) (i : Nat),
      blockId ∉ mapKeys (JSONContent.canonBlocksList cs) →
      findBlockList blockId i cs = none
  | _, [], _, _ => rfl
  | bId, c :: cs, i, h => by
    simp only [JSONContent.canonBlocksList, mapKeys, List.map_append, List.mem_append,
      not_or] at h
    rw [findBlockList]
    rw [findBlockList_eq_none bId cs (i + 1) h.2]
    rw [findBlockNode_eq_none bId c h.1]
    rfl

end

-- ===========================================================================
-- Lemmas: the verifySyncWithDocument observations
-- ===========================================================================

theorem totalLinkCount_eq_sum_keys (idx : LinkIndex) (h : NodupKeys idx.blockToReqs) :
    idx.getTotalLinkCount =
      ((mapKeys idx.blockToReqs).map (fun b => idx.getLinkCount b)).sum := by
  unfold LinkIndex.getTotalLinkCount LinkIndex.getLinkCount
  rw [mapKeys, List.map_map]
  congr 1
  apply List.map_congr_left
  intro p hp
  have hg := (mem_iff_mapGet idx.blockToReqs h p.1 p.2).mp (by simpa using hp)
  simp [Function.comp, hg]

-- ===========================================================================
-- Lemmas: the blockMeta table (Dexie put semantics)
-- ===========================================================================

theorem mem_ids_metaTablePut (t : List BlockMetaRecord) (r : BlockMetaRecord)
    (x : String) :
    x ∈ (metaTablePut t r).map (fun m => m.id) ↔
      x ∈ t.map (fun m => m.id) ∨ x = r.id := by
  induction t with
  | nil => simp [metaTablePut]
  | cons m t ih =>
    by_cases hm : m.id = r.id
    · simp only [metaTablePut, if_pos hm, List.map_cons, List.mem_cons]
      rw [hm]
      tauto
    · simp only [metaTablePut, if_neg hm, List.map_cons, List.mem_cons]
      rw [ih]
      tauto

theorem nodupIds_metaTablePut (t : List BlockMetaRecord) (r : BlockMetaRecord)
    (h : (t.map (fun m => m.id)).Nodup) :
    ((metaTablePut t r).map (fun m => m.id)).Nodup := by
  induction t with
  | nil => simp [metaTablePut]
  | cons m t ih =>
    simp only [List.map_cons, List.nodup_cons] at h
    by_cases hm : m.id = r.id
    · simp only [metaTablePut, if_pos hm, List.map_cons, List.nodup_cons]
      exact ⟨by rw [← hm]; exact h.1, h.2⟩
    · simp only [metaTablePut, if_neg hm, List.map_cons, List.nodup_cons]
      refine ⟨fun hx => ?_, ih h.2⟩
      rcases (mem_ids_metaTablePut t r m.id).mp hx with hx | hx
      · exact h.1 hx
      · exact hm hx

theorem mem_metaTablePut_self (t : List BlockMetaRecord) (r : BlockMetaRecord) :
    r ∈ metaTablePut t r := by
  induction t with
  | nil => simp [metaTablePut]
  | cons m t ih =>
    by_cases hm : m.id = r.id
    · simp [metaTablePut, hm]
    · simp only [metaTablePut, if_neg hm]
      exact List.mem_cons_of_mem m ih

theorem mem_metaTablePut_of_ne (t : List BlockMetaRecord) (r m : BlockMetaRecord)
    (hm : m ∈ t) (hne : m.id ≠ r.id) : m ∈ metaTablePut t r := by
  induction t with
  | nil => simp at hm
  | cons m' t ih =>
    rcases List.mem_cons.mp hm with h | h
    · have : ¬m'.id = r.id := by rw [← h]; exact hne
      simp only [metaTablePut, if_neg this]
      exact List.mem_cons.mpr (Or.inl h)
    · by_cases hm' : m'.id = r.id
      · simp only [metaTablePut, if_pos hm']
        exact List.mem_cons_of_mem r h

      · simp only [metaTablePut, if_neg hm']
        exact List.mem_cons_of_mem m' (ih h)

theorem mem_of_mem_metaTablePut (t : List BlockMetaRecord) (r m : BlockMetaRecord)
    (hm : m ∈ metaTablePut t r) : m ∈ t ∨ m = r := by
  induction t with
  | nil => exact Or.inr (by simpa [metaTablePut] using hm)
  | cons m' t ih =>
    by_cases hm' : m'.id = r.id
    · simp only [metaTablePut, if_pos hm'] at hm
      rcases List.mem_cons.mp hm with h | h
      · exact Or.inr h
      · exact Or.inl (List.mem_cons_of_mem m' h)
    · simp only [metaTablePut, if_neg hm'] at hm
      rcases List.mem_cons.mp hm with h | h
      · exact Or.inl (List.mem_cons.mpr (Or.inl h))
      · rcases ih h with h' | h'
        · exact Or.inl (List.mem_cons_of_mem m' h')
        · exact Or.inr h'

theorem nodupIds_bulkPut (rs : List BlockMetaRecord) :
    ∀ t : List BlockMetaRecord, (t.map (fun m => m.id)).Nodup →
      ((rs.foldl metaTablePut t).map (fun m => m.id)).Nodup := by
  induction rs with
  | nil => exact fun t h => h
  | cons r rs ih => exact fun t h => ih _ (nodupIds_metaTablePut t r h)

theorem mem_bulkPut_preserve (rs : List BlockMetaRecord) :
    ∀ (t : List BlockMetaRecord) (m : BlockMetaRecord), m ∈ t →
      m.id ∉ rs.map (fun x => x.id) → m ∈ rs.foldl metaTablePut t := by
  induction rs with
  | nil => exact fun t m hm _ => hm
  | cons r rs ih =>
    intro t m hm hni
    simp only [List.map_cons, List.mem_cons, not_or] at hni
    exact ih _ m (mem_metaTablePut_of_ne t r m hm hni.1) hni.2

theorem mem_bulkPut_of_mem (rs : List BlockMetaRecord)
    (hnd : (rs.map (fun m => m.id)).Nodup) :
    ∀ (t : List BlockMetaRecord) (m : BlockMetaRecord), m ∈ rs →
      m ∈ rs.foldl metaTablePut t := by
  induction rs with
  | nil => intro t m hm; simp at hm
  | cons r rs ih =>
    intro t m hm
    simp only [List.map_cons, List.nodup_cons] at hnd
    rcases List.mem_cons.mp hm with h | h
    · rw [h]
      rw [List.foldl_cons]
      exact mem_bulkPut_preserve rs _ r (mem_metaTablePut_self t r) hnd.1
    · exact ih hnd.2 _ m h

theorem mem_id_unique (t : List BlockMetaRecord)
    (h : (t.map (fun m => m.id)).Nodup) (m m' : BlockMetaRecord)
    (hm : m ∈ t) (hm' : m' ∈ t) (heq : m.id = m'.id) : m = m' := by
  induction t with
  | nil => simp at hm
  | cons a t ih =>
    simp only [List.map_cons, List.nodup_cons] at h
    rcases List.mem_cons.mp hm with h1 | h1 <;> rcases List.mem_cons.mp hm' with h2 | h2
    · rw [h1, h2]
    · exfalso
      apply h.1
      rw [← h1, heq]
      exact List.mem_map.mpr ⟨m', h2, rfl⟩
    · exfalso
      apply h.1
      rw [← h2, ← heq]
      exact List.mem_map.mpr ⟨m, h1, rfl⟩
    · exact ih h.2 h1 h2

theorem nodupBlockIds_applyOpsCanonical (S : List LinkOp) :
    ∀ doc : JSONContent, doc.NodupBlockIds → (doc.applyOpsCanonical S).NodupBlockIds := by
  induction S with
  | nil => exact fun doc h => h
  | cons op S ih =>
    intro doc h
    rw [applyOpsCanonical_cons]
    exact ih _ (nodupBlockIds_applyLinkOp doc op h)

-- ===========================================================================
-- The claims
-- ===========================================================================

/-- C1 (amended: the document handed to `rebuildFromDocument` must satisfy the
data model's id-uniqueness invariant, i.e. pairwise distinct `docBlock` ids —
the counterexample shows the invariant already fails right after a rebuild of
a document with a duplicated id). After `rebuildFromDocument` followed by any
sequence of `applyTransactionUpdate` calls, the two maps are exact inverses:
for every reqId `r` and blockId `b`, `b ∈ reqToBlocks[r]` iff `r` appears
among the reqIds of the records in `blockToReqs[b]`. -/
theorem C1_inverse_maps_invariant (D : JSONContent) (hD : D.NodupBlockIds)
    (ops : List (LinkTransactionMeta × Nat)) (r b : String) :
    b ∈ ((LinkIndex.rebuildFromDocument D).applyMetas ops).getBlocksForRequirement r ↔
      r ∈ (((LinkIndex.rebuildFromDocument D).applyMetas ops).getRequirementsForBlock b).map
        (fun lr => lr.reqId) := by
  obtain ⟨⟨h1, h2⟩, _⟩ :=
    good_applyMetas ops (LinkIndex.rebuildFromDocument D) D.canonLinks
      (good_rebuildFromDocument D hD)
  rw [h2 r b]
  unfold LinkIndex.getRequirementsForBlock
  rw [h1 b]
  by_cases hL : updMetas D.canonLinks ops b = []
  · simp [hL]
  · simp [hL]

/-- C1 witness: a link/unlink update on a one-block document. -/
theorem C1_inverse_maps_invariant_witness :
    oneBlockDocREQ1.NodupBlockIds ∧
    ("b1" ∈ ((LinkIndex.rebuildFromDocument oneBlockDocREQ1).applyMetas
        [(⟨"b1", [("REQ-2", Coverage.full)], ["REQ-1"]⟩, 5)]).getBlocksForRequirement
        "REQ-2" ↔
      "REQ-2" ∈ (((LinkIndex.rebuildFromDocument oneBlockDocREQ1).applyMetas
        [(⟨"b1", [("REQ-2", Coverage.full)], ["REQ-1"]⟩, 5)]).getRequirementsForBlock
        "b1").map (fun lr => lr.reqId)) :=
  ⟨by decide, C1_inverse_maps_invariant oneBlockDocREQ1 (by decide)
    [(⟨"b1", [("REQ-2", Coverage.full)], ["REQ-1"]⟩, 5)] "REQ-2" "b1"⟩

/-- C1 counterexample: on a document with two `docBlock`s sharing the id `"b"`
(the §9 duplication-aliasing situation), already after `rebuildFromDocument`
alone (the empty update sequence) the maps are not inverses: `"b"` is in
`reqToBlocks["REQ-1"]` but no record in `blockToReqs["b"]` carries `REQ-1`. -/
theorem C1_cex_duplicate_ids :
    "b" ∈ (LinkIndex.rebuildFromDocument dupIdDoc).getBlocksForRequirement "REQ-1" ∧
    "REQ-1" ∉ ((LinkIndex.rebuildFromDocument dupIdDoc).getRequirementsForBlock "b").map
      (fun lr => lr.reqId) := by decide

/-- C2 (amended: with distinct block ids and every operation of `S` targeting
a block present in `D`, the incremental path and the canonical-then-rebuild
path agree on `getTotalLinkCount` and agree on `getBlocksForRequirement` for
every reqId *as sets* — up to permutation, not element order; the
counterexample shows the orders genuinely differ). -/
theorem C2_incremental_equiv_rebuild (D : JSONContent) (S : List LinkOp)
    (hD : D.NodupBlockIds) (hS : ∀ op ∈ S, D.docHasBlock op.blockId = true) :
    ((LinkIndex.rebuildFromDocument D).applyOpsIncremental S).getTotalLinkCount =
      (LinkIndex.rebuildFromDocument (D.applyOpsCanonical S)).getTotalLinkCount ∧
    ∀ r : String,
      (((LinkIndex.rebuildFromDocument D).applyOpsIncremental S).getBlocksForRequirement
          r).Perm
        ((LinkIndex.rebuildFromDocument
          (D.applyOpsCanonical S)).getBlocksForRequirement r) := by
  have hincr := good_applyOpsIncremental S D hD hS _ (good_rebuildFromDocument D hD)
  have hDS : (D.applyOpsCanonical S).NodupBlockIds :=
    nodupBlockIds_applyOpsCanonical S D hD
  have hcanon := good_rebuildFromDocument (D.applyOpsCanonical S) hDS
  exact ⟨totalLinkCount_eq_of_good _ _ _ hincr hcanon,
    fun r => getBlocks_perm_of_good _ _ _ hincr hcanon r⟩

/-- C2 witness: unlinking the only link of a one-block document. -/
theorem C2_incremental_equiv_rebuild_witness :
    oneBlockDocREQ1.NodupBlockIds ∧
    (((LinkIndex.rebuildFromDocument oneBlockDocREQ1).applyOpsIncremental
        [LinkOp.unlink "b1" "REQ-1"]).getTotalLinkCount =
      (LinkIndex.rebuildFromDocument (oneBlockDocREQ1.applyOpsCanonical
        [LinkOp.unlink "b1" "REQ-1"])).getTotalLinkCount ∧
      ∀ r : String,
        (((LinkIndex.rebuildFromDocument oneBlockDocREQ1).applyOpsIncremental
            [LinkOp.unlink "b1" "REQ-1"]).getBlocksForRequirement r).Perm
          ((LinkIndex.rebuildFromDocument (oneBlockDocREQ1.applyOpsCanonical
            [LinkOp.unlink "b1" "REQ-1"])).getBlocksForRequirement r)) :=
  ⟨by decide, C2_incremental_equiv_rebuild oneBlockDocREQ1 [LinkOp.unlink "b1" "REQ-1"]
    (by decide) (by decide)⟩

/-- C2 counterexample: linking `REQ-1` to `b1` in a document where `b2`
already links `REQ-1` yields `["b2", "b1"]` on the incremental path but
`["b1", "b2"]` after canonical-update-then-rebuild: the results are not
identical (they agree only as sets). -/
theorem C2_cex_order :
    orderDocBase.NodupBlockIds ∧
    orderDocBase.docHasBlock "b1" = true ∧
    ((LinkIndex.rebuildFromDocument orderDocBase).applyOpsIncremental
        [LinkOp.link "b1" "REQ-1" Coverage.full 5]).getBlocksForRequirement "REQ-1" ≠
      (LinkIndex.rebuildFromDocument (orderDocBase.applyOpsCanonical
        [LinkOp.link "b1" "REQ-1" Coverage.full 5])).getBlocksForRequirement "REQ-1" := by
  decide

/-- C5: starting from any index whose per-block record lists carry distinct
reqIds (the empty index in particular), any sequence of incremental add
operations leaves, for every block, at most one `LinkRecord` per reqId:
duplicates are coalesced, not appended. -/
theorem C5_coalescing (idx : LinkIndex) (h : idx.NodupReqIds)
    (adds : List (String × String × Coverage × Nat)) (b : String) :
    (((idx.applyAdds adds).getRequirementsForBlock b).map
      (fun lr => lr.reqId)).Nodup := by
  have hres := nodupReqIds_applyAdds adds idx h b
  simpa [LinkIndex.getRequirementsForBlock] using hres

/-- C5 witness: linking `REQ-1` to `b1` twice leaves one record. -/
theorem C5_coalescing_witness :
    LinkIndex.empty.NodupReqIds ∧
    (((LinkIndex.empty.applyAdds [("b1", "REQ-1", Coverage.full, 0),
        ("b1", "REQ-1", Coverage.full, 1)]).getRequirementsForBlock "b1").map
      (fun lr => lr.reqId)).Nodup :=
  ⟨fun b => by simp [LinkIndex.empty, mapGet],
    C5_coalescing LinkIndex.empty (fun b => by simp [LinkIndex.empty, mapGet])
      [("b1", "REQ-1", Coverage.full, 0), ("b1", "REQ-1", Coverage.full, 1)] "b1"⟩

/-- C8: when block `b₀`'s records all carry `r₀` and no other block links
`r₀`, the incremental update removing `r₀` from `b₀` prunes both maps:
`hasLinks b₀` becomes false and `reqToBlocks` no longer contains the key
`r₀`. -/
theorem C8_prune_on_removal (idx : LinkIndex) (b₀ r₀ : String)
    (l : List LinkedRequirement) (s : List String)
    (hwb : NodupKeys idx.blockToReqs) (hwr : NodupKeys idx.reqToBlocks)
    (hbl : mapGet idx.blockToReqs b₀ = some l)
    (hall : ∀ lr ∈ l, lr.reqId = r₀)
    (hrs : mapGet idx.reqToBlocks r₀ = some s)
    (hsub : ∀ x ∈ s, x = b₀) :
    (idx.applyTransactionUpdate ⟨b₀, [], [r₀]⟩ 0).hasLinks b₀ = false ∧
    mapGet (idx.applyTransactionUpdate ⟨b₀, [], [r₀]⟩ 0).reqToBlocks r₀ = none := by
  have happ : idx.applyTransactionUpdate ⟨b₀, [], [r₀]⟩ 0 = idx.removeLink b₀ r₀ := rfl
  rw [happ]
  have hfilter : removeRequirementLink l r₀ = [] := by
    rw [removeRequirementLink, List.filter_eq_nil_iff]
    intro lr hlr
    simp [hall lr hlr]
  have hsd : setDelete s b₀ = [] := by
    rw [setDelete, List.filter_eq_nil_iff]
    intro x hx
    simp [hsub x hx]
  constructor
  · unfold LinkIndex.hasLinks
    rw [removeLink_btr_of_some idx b₀ r₀ l hbl, hfilter]
    simp only [List.length_nil, gt_iff_lt, lt_self_iff_false, if_false]
    rw [mapGet_mapDelete_self _ _ hwb]
  · rw [removeLink_rtb_of_some idx b₀ r₀ s hrs, hsd,
      if_pos (show ([] : List String).length = 0 from rfl)]
    exact mapGet_mapDelete_self _ _ hwr

/-- C8 witness: removing `REQ-1` from the one-block document's index. -/
theorem C8_prune_on_removal_witness :
    ((LinkIndex.rebuildFromDocument oneBlockDocREQ1).applyTransactionUpdate
        ⟨"b1", [], ["REQ-1"]⟩ 0).hasLinks "b1" = false ∧
    mapGet ((LinkIndex.rebuildFromDocument oneBlockDocREQ1).applyTransactionUpdate
        ⟨"b1", [], ["REQ-1"]⟩ 0).reqToBlocks "REQ-1" = none :=
  C8_prune_on_removal (LinkIndex.rebuildFromDocument oneBlockDocREQ1) "b1" "REQ-1"
    [lrREQ1] ["b1"] (by decide) (by decide) (by decide) (by decide) (by decide)
    (by decide)

/-- C9: a transaction that carries no `linkChange` annotation leaves the Link
Index untouched, whatever else it did (structure changes included). -/
theorem C9_no_linkchange_frame (tx : LinkTransaction) (idx : LinkIndex) (now : Nat)
    (h : ∀ m, tx.linkMeta = some m → m.mtype ≠ "linkChange") :
    onTransactionLinkIndex tx idx now = idx := by
  unfold onTransactionLinkIndex
  cases hm : tx.linkMeta with
  | none => rfl
  | some m =>
    show (if m.mtype = "linkChange" then
        idx.applyTransactionUpdate ⟨m.blockId, m.addedLinks, m.removedLinks⟩ now
      else idx) = idx
    rw [if_neg (h m hm)]

/-- C9 witness: a structure-changing transaction with no meta. -/
theorem C9_no_linkchange_frame_witness :
    onTransactionLinkIndex ⟨none, true⟩ driftedIdx 0 = driftedIdx :=
  C9_no_linkchange_frame ⟨none, true⟩ driftedIdx 0 (fun m hm => by simp at hm)

/-- C10: `linkRequirementToBlock` fails atomically: when no `docBlock` with
the given id exists, or the found block already links the reqId, it returns
false and leaves the document and the Link Index unchanged. -/
theorem C10_link_fails_atomically (st : EditorState) (blockId reqId : String)
    (now : Nat)
    (h : st.doc.docHasBlock blockId = false ∨
      ∃ p lrs, findBlockNode blockId st.doc = some (p, lrs) ∧
        lrs.any (fun lr => lr.reqId = reqId) = true) :
    linkRequirementToBlock st blockId reqId now = (false, st) := by
  rcases h with h | ⟨p, lrs, hf, ha⟩
  · have hnone : findBlockNode blockId st.doc = none := by
      apply findBlockNode_eq_none
      intro hmem
      have hsome := mapGet_isSome_of_mem_keys st.doc.canonBlocks blockId hmem
      rw [JSONContent.docHasBlock] at h
      rw [h] at hsome
      simp at hsome
    unfold linkRequirementToBlock
    rw [hnone]
  · unfold linkRequirementToBlock
    rw [hf]
    simp [ha]

/-- C10 witness: linking to a non-existing block id. -/
theorem C10_link_fails_atomically_witness :
    orderDocBase.docHasBlock "zz" = false ∧
    linkRequirementToBlock
        ⟨orderDocBase, LinkIndex.rebuildFromDocument orderDocBase⟩ "zz" "REQ-9" 7 =
      (false, ⟨orderDocBase, LinkIndex.rebuildFromDocument orderDocBase⟩) :=
  ⟨by decide, C10_link_fails_atomically
    ⟨orderDocBase, LinkIndex.rebuildFromDocument orderDocBase⟩ "zz" "REQ-9" 7
    (Or.inl (by decide))⟩

/-- C3 (amended): `verifySyncWithDocument` detects exactly the drift visible
in the indexed-block set and per-block link counts: returning true (for a
live `blockToReqs` without duplicate keys) means the live index and the
fresh rebuild index the same block set, agree on every live block's link
count and hence on `getTotalLinkCount`. It does not compare requirement ids
or `reqToBlocks`, so drift preserving these counts goes undetected — the
counterexample exhibits a drifted index that still passes. -/
theorem C3_verify_detects_counts (idx : LinkIndex) (doc : JSONContent)
    (hwb : NodupKeys idx.blockToReqs)
    (hv : idx.verifySyncWithDocument doc = true) :
    (mapKeys idx.blockToReqs).Perm
        (mapKeys (LinkIndex.rebuildFromDocument doc).blockToReqs) ∧
    (∀ b ∈ mapKeys idx.blockToReqs,
      idx.getLinkCount b = (LinkIndex.rebuildFromDocument doc).getLinkCount b) ∧
    idx.getTotalLinkCount = (LinkIndex.rebuildFromDocument doc).getTotalLinkCount := by
  obtain ⟨hFb, _, _⟩ := wf_rebuildFromDocument doc
  simp only [LinkIndex.verifySyncWithDocument] at hv
  by_cases hlen :
      idx.blockToReqs.length ≠ (LinkIndex.rebuildFromDocument doc).blockToReqs.length
  · rw [if_pos hlen] at hv
    exact absurd hv (by simp)
  · rw [if_neg hlen] at hv
    push_neg at hlen
    rw [List.all_eq_true] at hv
    have hentry : ∀ p ∈ idx.blockToReqs,
        ∃ fr, mapGet (LinkIndex.rebuildFromDocument doc).blockToReqs p.1 = some fr ∧
          p.2.length = fr.length := by
      intro p hp
      have hvp := hv p hp
      cases hg : mapGet (LinkIndex.rebuildFromDocument doc).blockToReqs p.1 with
      | none => rw [hg] at hvp; simp at hvp
      | some fr =>
        rw [hg] at hvp
        exact ⟨fr, rfl, by simpa using hvp⟩
    have hsub : mapKeys idx.blockToReqs ⊆
        mapKeys (LinkIndex.rebuildFromDocument doc).blockToReqs := by
      intro k hk
      obtain ⟨p, hp, rfl⟩ := List.mem_map.mp hk
      obtain ⟨fr, hfr, _⟩ := hentry p hp
      exact mem_keys_of_mapGet_isSome _ _ (by rw [hfr]; rfl)
    have hperm : (mapKeys idx.blockToReqs).Perm
        (mapKeys (LinkIndex.rebuildFromDocument doc).blockToReqs) := by
      refine List.Subperm.perm_of_length_le (List.subperm_of_subset hwb hsub) ?_
      simp only [mapKeys, List.length_map]
      omega
    have hcount : ∀ b ∈ mapKeys idx.blockToReqs,
        idx.getLinkCount b = (LinkIndex.rebuildFromDocument doc).getLinkCount b := by
      intro b hb
      obtain ⟨p, hp, rfl⟩ := List.mem_map.mp hb
      obtain ⟨fr, hfr, hlen2⟩ := hentry p hp
      have hpg : mapGet idx.blockToReqs p.1 = some p.2 :=
        (mem_iff_mapGet _ hwb p.1 p.2).mp (by simpa using hp)
      unfold LinkIndex.getLinkCount
      rw [hpg, hfr]
      simpa using hlen2
    refine ⟨hperm, hcount, ?_⟩
    rw [totalLinkCount_eq_sum_keys idx hwb, totalLinkCount_eq_sum_keys _ hFb]
    rw [List.map_congr_left hcount]
    exact List.Perm.sum_eq (hperm.map _)

/-- C3 witness: an in-sync index passes the check. -/
theorem C3_verify_detects_counts_witness :
    NodupKeys (LinkIndex.rebuildFromDocument oneBlockDocREQ2).blockToReqs ∧
    ((LinkIndex.rebuildFromDocument oneBlockDocREQ2).verifySyncWithDocument
        oneBlockDocREQ2 = true) ∧
    ((mapKeys (LinkIndex.rebuildFromDocument oneBlockDocREQ2).blockToReqs).Perm
        (mapKeys (LinkIndex.rebuildFromDocument oneBlockDocREQ2).blockToReqs) ∧
      (∀ b ∈ mapKeys (LinkIndex.rebuildFromDocument oneBlockDocREQ2).blockToReqs,
        (LinkIndex.rebuildFromDocument oneBlockDocREQ2).getLinkCount b =
          (LinkIndex.rebuildFromDocument oneBlockDocREQ2).getLinkCount b) ∧
      (LinkIndex.rebuildFromDocument oneBlockDocREQ2).getTotalLinkCount =
        (LinkIndex.rebuildFromDocument oneBlockDocREQ2).getTotalLinkCount) :=
  ⟨by decide, by decide,
    C3_verify_detects_counts (LinkIndex.rebuildFromDocument oneBlockDocREQ2)
      oneBlockDocREQ2 (by decide) (by decide)⟩

/-- C3 counterexample: a live index that disagrees with the fresh rebuild
only in the requirement id (and in `reqToBlocks`) still passes
`verifySyncWithDocument`: the check does not detect every drift. -/
theorem C3_cex_undetected_drift :
    driftedIdx.verifySyncWithDocument oneBlockDocREQ2 = true ∧
    driftedIdx ≠ LinkIndex.rebuildFromDocument oneBlockDocREQ2 := by decide

/-- C4 (amended: the garbage collection is scoped to the committed document:
after `commitSnapshot`, no stored record *of that document* has a blockId
outside `presentBlockIds`, and every present block has a record of that
document; records of other documents are untouched, as the counterexample
shows). Hypotheses spell out "metaRecords covering exactly the blocks of P":
each record belongs to the committed document and a present block, every
present block is covered, ids are unique. -/
theorem C4_gc_scoped (db : DocBrandDb) (docRecord : DocumentRecord)
    (metaRecords : List BlockMetaRecord) (P : List String)
    (hdb : (db.blockMeta.map (fun m => m.id)).Nodup)
    (hdoc : ∀ m ∈ metaRecords, m.docId = docRecord.id)
    (hids : (metaRecords.map (fun m => m.id)).Nodup)
    (hcov1 : ∀ m ∈ metaRecords, m.blockId ∈ P)
    (hcov2 : ∀ b ∈ P, ∃ m ∈ metaRecords, m.blockId = b) :
    (∀ m ∈ (commitSnapshot db docRecord metaRecords P).blockMeta,
      m.docId = docRecord.id → m.blockId ∈ P) ∧
    (∀ b ∈ P, ∃ m ∈ (commitSnapshot db docRecord metaRecords P).blockMeta,
      m.docId = docRecord.id ∧ m.blockId = b) := by
  have hput : (commitSnapshot db docRecord metaRecords P).blockMeta =
      (metaRecords.foldl metaTablePut db.blockMeta).filter (fun m =>
        m.id ∉ (((metaRecords.foldl metaTablePut db.blockMeta).filter
          (fun m => m.docId = docRecord.id)).filter
            (fun m => m.blockId ∉ P)).map (fun m => m.id)) := rfl
  have hnd1 : ((metaRecords.foldl metaTablePut db.blockMeta).map
      (fun m => m.id)).Nodup := nodupIds_bulkPut metaRecords db.blockMeta hdb
  constructor
  · intro m hm hmd
    rw [hput] at hm
    have hm1 := List.mem_filter.mp hm
    by_contra hnotP
    apply (by simpa using hm1.2 :
      m.id ∉ (((metaRecords.foldl metaTablePut db.blockMeta).filter
        (fun m => m.docId = docRecord.id)).filter
          (fun m => m.blockId ∉ P)).map (fun m => m.id))
    refine List.mem_map.mpr ⟨m, ?_, rfl⟩
    refine List.mem_filter.mpr ⟨List.mem_filter.mpr ⟨hm1.1, by simpa using hmd⟩, ?_⟩
    simpa using hnotP
  · intro b hb
    obtain ⟨m₀, hm₀, hbid⟩ := hcov2 b hb
    have hin1 : m₀ ∈ metaRecords.foldl metaTablePut db.blockMeta :=
      mem_bulkPut_of_mem metaRecords hids db.blockMeta m₀ hm₀
    refine ⟨m₀, ?_, hdoc m₀ hm₀, hbid⟩
    rw [hput]
    refine List.mem_filter.mpr ⟨hin1, ?_⟩
    simp only [List.mem_map, not_exists, not_and, decide_eq_true_eq]
    have hnot : m₀.id ∉ (((metaRecords.foldl metaTablePut db.blockMeta).filter
        (fun m => m.docId = docRecord.id)).filter
          (fun m => m.blockId ∉ P)).map (fun m => m.id) := by
      intro hmem
      obtain ⟨m', hm', hideq⟩ := List.mem_map.mp hmem
      have hm'1 := List.mem_filter.mp hm'
      have hm'2 := List.mem_filter.mp hm'1.1
      have : m' = m₀ := mem_id_unique _ hnd1 m' m₀ hm'2.1 hin1 hideq
      rw [this] at hm'1
      have : m₀.blockId ∉ P := by simpa using hm'1.2
      exact this (hcov1 m₀ hm₀)
    simpa using hnot

/-- C4 witness: committing one present block. -/
theorem C4_gc_scoped_witness :
    ((([] : List BlockMetaRecord).map (fun m => m.id)).Nodup) ∧
    ((∀ m ∈ (commitSnapshot ⟨[], []⟩ commitDocRec [commitBlockMeta] ["b"]).blockMeta,
        m.docId = commitDocRec.id → m.blockId ∈ ["b"]) ∧
      (∀ b ∈ ["b"], ∃ m ∈ (commitSnapshot ⟨[], []⟩ commitDocRec [commitBlockMeta]
          ["b"]).blockMeta, m.docId = commitDocRec.id ∧ m.blockId = b)) :=
  ⟨by decide, C4_gc_scoped ⟨[], []⟩ commitDocRec [commitBlockMeta] ["b"]
    (by decide) (by decide) (by decide) (by decide) (by decide)⟩

/-- C4 counterexample: a stored record of another document whose blockId is
not in `presentBlockIds` survives `commitSnapshot` — the claim's "no stored
block-metadata record exists whose blockId is not in P", read over the whole
table, is false; the sweep is scoped to the committed document's records. -/
theorem C4_cex_other_doc :
    otherDocMeta ∈ (commitSnapshot ⟨[], [otherDocMeta]⟩ commitDocRec
      [commitBlockMeta] ["b"]).blockMeta ∧
    otherDocMeta.blockId ∉ ["b"] := by decide

/-- C6 (amended): the Block Position Index plugin skips its rebuild exactly
when the transaction did not change the document at all (`docChanged` false);
any document change — including a content-only keystroke that preserves the
tree shape — rebuilds the blocks map and increments the version counter, so
the state is unchanged iff the documents are equal. -/
theorem C6_rebuild_iff_docChanged (tr : Transaction) (value : BlockIndexState) :
    blockIndexApply tr value = value ↔ tr.oldDoc = tr.newDoc := by
  unfold blockIndexApply Transaction.docChanged
  by_cases h : tr.oldDoc = tr.newDoc
  · simp [h]
  · constructor
    · intro he
      have hv := congrArg BlockIndexState.version he
      simp [h] at hv
    · intro he
      exact absurd he h

/-- C6 counterexample: a transaction that changes only text content (same
tree shape, node count, order and sizes) still rebuilds the Block Position
Index: its version counter changes, refuting "the state is left
unchanged". -/
theorem C6_cex_content_only_rebuild :
    contentDocA ≠ contentDocZ ∧
    contentDocA.sameShape contentDocZ = true ∧
    blockIndexApply ⟨contentDocA, contentDocZ⟩ ⟨buildBlockIndex contentDocA, 0⟩ ≠
      ⟨buildBlockIndex contentDocA, 0⟩ := by decide

/-- C7 (amended): `unlinkFromBlock` maps a per-requirement update over the
store, and the updated requirement's status is `'unlinked'` exactly when the
requirement matched and its linkedBlockIds *before* the call had length ≤ 1,
or its status already was `'unlinked'` — not when the post-removal list is
empty (the counterexample shows the two differ). -/
theorem C7_status_from_prior_length (s : RequirementsState) (reqId blockId : String)
    (r : Requirement) :
    unlinkFromBlock s reqId blockId =
      { s with requirements := s.requirements.map (unlinkReqUpdate reqId blockId) } ∧
    ((unlinkReqUpdate reqId blockId r).status = ReqStatus.unlinked ↔
      ((r.id = reqId ∧ r.linkedBlockIds.length ≤ 1) ∨
        r.status = ReqStatus.unlinked)) := by
  refine ⟨rfl, ?_⟩
  unfold unlinkReqUpdate
  by_cases hid : r.id = reqId
  · rw [if_pos hid]
    by_cases hlen : r.linkedBlockIds.length ≤ 1
    · simp [hlen, hid]
    · simp [hlen, hid]
  · rw [if_neg hid]
    simp [hid]

/-- C7 counterexample: unlinking block `b1` from a requirement whose only
linked block is `b2` leaves the status `'unlinked'` although the
linkedBlockIds list after removal is `["b2"]`, non-empty: status is not
"'unlinked' exactly when the list is empty after the removal". -/
theorem C7_cex_status_mismatch :
    ((unlinkFromBlock ⟨[reqLinkedToB2], none⟩ "R" "b1").requirements.map
      (fun r => (r.status, r.linkedBlockIds))) =
      [(ReqStatus.unlinked, ["b2"])] := by decide

end Docbrand
